import Mathlib

/-
Verification of the annotation highlight-rendering engine of the Gutenberg
reading application (packages/frontend/src/utils/highlightContent.ts).

Modelling conventions:
* JS strings are Lean `String`s; character-level work happens on `List Char`
  (`String.data`), which matches JS's sequence-of-code-units view for the
  characters appearing here.
* `createdAt` timestamps are modelled as `Nat` epoch values; `new Date(x) >
  new Date(y)` on valid timestamps is exactly `x > y` on the epoch values.
* Character offsets are `Nat`: the annotation schema (`annotationCreateSchema`)
  constrains `startOffset`/`endOffset` with `z.number().int().min(0)`.
* `Array.prototype.sort` with the comparator of
  `resolveOverlappingAnnotations` (offset ascending, `end` events before
  `start` events at equal offsets) is modelled as a stable insertion sort by
  that key.  The JS comparator is inconsistent on pairs of events of equal
  offset and equal type (it returns a nonzero constant for them), so the
  relative order of such ties is implementation defined in JS; the model keeps
  them in input order, which is the order the comment in the source describes.
  No theorem below depends on the tie order except through explicitly stated
  hypotheses or concrete inputs whose conclusion is tie-order independent.
-/

/-- The fields of the shared `Annotation` type that `highlightContent.ts`
reads: `id`, `startOffset`, `endOffset`, `color`, `createdAt`. -/
structure Annotation where
  id : String
  startOffset : Nat
  endOffset : Nat
  color : String
  createdAt : Nat
deriving DecidableEq, Repr

/-- Model of `HighlightRange` from highlightContent.ts (lines 3-8).  The source field
`end` is a Lean keyword and is rendered `endPos`. -/
structure HighlightRange where
  start : Nat
  endPos : Nat
  annotationIds : List String
  color : String
deriving DecidableEq, Repr

/-- Event type of the sweep (`'start' | 'end'`); `end` is rendered `stop`. -/
inductive EventType where
  | start : EventType
  | stop : EventType
deriving DecidableEq, Repr

/-- Model of `type Event = { offset, type, annotation }` (line 17). -/
structure Event where
  offset : Nat
  type : EventType
  annotation : Annotation
deriving DecidableEq, Repr

/-- The `start` event pushed for an annotation (line 21). -/
def startEv (a : Annotation) : Event := ⟨a.startOffset, EventType.start, a⟩

/-- The `end` event pushed for an annotation (line 22). -/
def stopEv (a : Annotation) : Event := ⟨a.endOffset, EventType.stop, a⟩

/-- The event list built by the loop at lines 20-23: for each annotation, its
start event then its end event, in input order. -/
def rawEvents (annotations : List Annotation) : List Event :=
  annotations.flatMap fun a => [startEv a, stopEv a]

/-- The order implemented by the comparator at lines 26-29: ascending offset,
and at equal offsets `end` events before `start` events. -/
def evLE (x y : Event) : Prop :=
  x.offset < y.offset ∨
    (x.offset = y.offset ∧ (x.type = EventType.stop ∨ y.type = EventType.start))

instance : DecidableRel evLE := fun x y => by
  unfold evLE; exact inferInstance

instance : IsTotal Event evLE := by
  constructor
  intro a b
  rcases Nat.lt_trichotomy a.offset b.offset with h | h | h
  · exact Or.inl (Or.inl h)
  · cases ha : a.type
    · cases hb : b.type
      · exact Or.inl (Or.inr ⟨h, Or.inr hb⟩)
      · exact Or.inr (Or.inr ⟨h.symm, Or.inl hb⟩)
    · exact Or.inl (Or.inr ⟨h, Or.inl ha⟩)
  · exact Or.inr (Or.inl h)

instance : IsTrans Event evLE := by
  constructor
  intro a b c hab hbc
  rcases hab with h1 | ⟨h1, p1⟩
  · rcases hbc with h2 | ⟨h2, _⟩
    · exact Or.inl (h1.trans h2)
    · exact Or.inl (h2 ▸ h1)
  · rcases hbc with h2 | ⟨h2, p2⟩
    · exact Or.inl (h1 ▸ h2)
    · refine Or.inr ⟨h1.trans h2, ?_⟩
      rcases p1 with p1 | p1
      · exact Or.inl p1
      · rcases p2 with p2 | p2
        · cases p1 ▸ p2
        · exact Or.inr p2

/-- The sort at lines 26-29, modelled as a stable sort by `evLE`. -/
def sortEvents (events : List Event) : List Event :=
  List.insertionSort evLE events

/-- The `reduce` callback of `getMostRecentColor` folded over the list (lines
59-63): keep `latest` unless the current annotation was created strictly
later. -/
def mostRecent (latest : Annotation) : List Annotation → Annotation
  | [] => latest
  | a :: rest => mostRecent (if a.createdAt > latest.createdAt then a else latest) rest

/-- Model of `getMostRecentColor` (lines 58-64).  The JS `reduce` with no initial value
throws on an empty array; the function is only ever called with a non-empty
active list, and the empty case is given the junk value `""`. -/
def getMostRecentColor (annotations : List Annotation) : String :=
  match annotations with
  | [] => ""
  | a :: rest => (mostRecent a rest).color

/-- Model of `activeAnnotations.findIndex(a => a.id === id)` followed by
`splice(idx, 1)` when found (lines 48-49): remove the first annotation with
the given id, or leave the list unchanged when there is none. -/
def removeFirstById : List Annotation → String → List Annotation
  | [], _ => []
  | a :: rest, i => if a.id = i then rest else a :: removeFirstById rest i

/-- The mutable state of the sweep loop (lines 31-33). -/
structure SweepState where
  ranges : List HighlightRange
  active : List Annotation
  lastOffset : Nat
deriving Repr

/-- One iteration of the event loop (lines 35-53): emit a range when the
active set is non-empty and the sweep advances, then apply the event to the
active list, then record the event offset. -/
def sweepStep (st : SweepState) (e : Event) : SweepState :=
  let ranges :=
    if st.active ≠ [] ∧ st.lastOffset < e.offset then
      st.ranges ++
        [⟨st.lastOffset, e.offset, st.active.map (fun a => a.id),
          getMostRecentColor st.active⟩]
    else st.ranges
  let active :=
    match e.type with
    | EventType.start => st.active ++ [e.annotation]
    | EventType.stop => removeFirstById st.active e.annotation.id
  ⟨ranges, active, e.offset⟩

/-- Model of `resolveOverlappingAnnotations` (lines 14-56). -/
def resolveOverlappingAnnotations (annotations : List Annotation) : List HighlightRange :=
  if annotations = [] then []
  else
    ((sortEvents (rawEvents annotations)).foldl sweepStep ⟨[], [], 0⟩).ranges

/-- Sanity check matching the spec's Example 1: `A=[0,10)` created at 1,
`B=[5,15)` created at 2. -/
lemma resolve_spec_example1 :
    resolveOverlappingAnnotations
      [⟨"A", 0, 10, "#a00000", 1⟩, ⟨"B", 5, 15, "#0b0000", 2⟩] =
      [⟨0, 5, ["A"], "#a00000"⟩, ⟨5, 10, ["A", "B"], "#0b0000"⟩,
        ⟨10, 15, ["B"], "#0b0000"⟩] := by
  decide

/-! ## The plain-text painter (`applyHighlightsToText`) -/

/-- Model of `annotationIds.join(',')` (line 72): comma-separated concatenation. -/
def joinComma : List String → String
  | [] => ""
  | [s] => s
  | s :: rest => s ++ "," ++ joinComma rest

/-- Model of `createMarkOpen` (lines 69-73).  On an empty JS array, `annotationIds[0]`
is `undefined` and interpolates into the template literal as `"undefined"`;
the ranges produced by the resolver always carry at least one id. -/
def createMarkOpen (annotationIds : List String) (color : String) : String :=
  "<mark data-annotation-id=\"" ++ annotationIds.headD "undefined" ++
    "\" data-annotation-ids=\"" ++ joinComma annotationIds ++
    "\" style=\"background-color: " ++ (color ++ "66") ++ ";\">"

/-- Model of `createMarkClose` (lines 75-77). -/
def createMarkClose : String := "</mark>"

/-- One global single-character replacement, `text.replace(/c/g, r)`, at the
character-list level. -/
def replaceCharL (c : Char) (r : List Char) : List Char → List Char
  | [] => []
  | d :: rest => (if d = c then r else [d]) ++ replaceCharL c r rest

/-- Model of `escapeHtml` (lines 82-89) on character lists: the five sequential global
replacements, innermost first, in source order. -/
def escData (l : List Char) : List Char :=
  replaceCharL '\'' "&#039;".data
    (replaceCharL '"' "&quot;".data
      (replaceCharL '>' "&gt;".data
        (replaceCharL '<' "&lt;".data
          (replaceCharL '&' "&amp;".data l))))

/-- Model of `escapeHtml` (lines 82-89). -/
def escapeHtml (text : String) : String := ⟨escData text.data⟩

/-- Model of `content.slice(a, b)` for non-negative `a`, `b`: the characters of the
half-open interval `[a, b)`, clamped to the string. -/
def sliceL (l : List Char) (a b : Nat) : List Char := (l.take b).drop a

/-- The body of the `for (const range of ranges)` loop of
`applyHighlightsToText` (lines 109-122), acting on the accumulator
`(result, lastIndex)`. -/
def paintStep (content : List Char) (acc : List Char × Nat) (range : HighlightRange) :
    List Char × Nat :=
  let result :=
    if acc.2 < range.start then acc.1 ++ escData (sliceL content acc.2 range.start)
    else acc.1
  let result := result ++ (createMarkOpen range.annotationIds range.color).data ++
    escData (sliceL content range.start range.endPos) ++ createMarkClose.data
  (result, range.endPos)

/-- Model of `applyHighlightsToText` (lines 95-130). -/
def applyHighlightsToText (content : String) (annotations : List Annotation) : String :=
  if annotations = [] then escapeHtml content
  else
    let ranges := resolveOverlappingAnnotations annotations
    if ranges = [] then escapeHtml content
    else
      let folded := ranges.foldl (paintStep content.data) ([], 0)
      if folded.2 < content.data.length then
        ⟨folded.1 ++ escData (content.data.drop folded.2)⟩
      else ⟨folded.1⟩

/-! ## Specification-side observers for the text painter

The spec's text-preservation property talks about "removing all wrapper
markers and undoing the escaping".  The painter's markers are the only places
where a raw `<` or `>` can occur in its output (escaped text contains
neither), so removing markers is removing every maximal `<`...`>` segment;
undoing the escaping maps the five entities back to their characters. -/

mutual

/-- Remove every `<`...`>` tag segment, copying text outside tags. -/
def stripTags : List Char → List Char
  | [] => []
  | c :: rest => if c = '<' then stripTagsIn rest else c :: stripTags rest

/-- Inside a tag: discard characters up to and including the closing `>`. -/
def stripTagsIn : List Char → List Char
  | [] => []
  | c :: rest => if c = '>' then stripTags rest else stripTagsIn rest

end

/-- Boolean test: is `p` an initial segment of `l`? -/
def hasPre : List Char → List Char → Bool
  | [], _ => true
  | _ :: _, [] => false
  | c :: p, d :: l => c == d && hasPre p l

/-- Undo `escapeHtml`: map the five entities introduced by the escaping back
to their source characters, copying everything else. -/
def unescChars (l : List Char) : List Char :=
  match l with
  | [] => []
  | c :: rest =>
    if c = '&' then
      if hasPre "amp;".data rest then '&' :: unescChars (rest.drop 4)
      else if hasPre "lt;".data rest then '<' :: unescChars (rest.drop 3)
      else if hasPre "gt;".data rest then '>' :: unescChars (rest.drop 3)
      else if hasPre "quot;".data rest then '"' :: unescChars (rest.drop 5)
      else if hasPre "#039;".data rest then '\'' :: unescChars (rest.drop 5)
      else '&' :: unescChars rest
    else c :: unescChars rest
termination_by l.length
decreasing_by
  all_goals simp [List.length_drop]
  all_goals omega

/-! ## The structured-markup painter (`applyHighlightsToHtml`)

The browser DOM is modelled as the document-ordered sequence of its
serialization-relevant parts: structural markup fragments (tags, attributes,
nesting — everything that is not a text node) interleaved with text nodes.
A text node is a list of segments: the pieces produced from the original node
by `splitText`, each either still plain or wrapped in a `<mark>` element.
`DOMParser`/`document.createTreeWalker` are browser APIs, not repository
code; parsing is therefore an abstract parameter producing such a document
(with every text node a single plain segment), and the tree walk is the
document-order traversal of the items. -/

/-- One piece of a (possibly split) text node. -/
inductive Seg where
  | plain (s : List Char) : Seg
  | marked (ids : List String) (color : String) (s : List Char) : Seg
deriving DecidableEq, Repr

/-- The text content of a segment. -/
def segText : Seg → List Char
  | Seg.plain s => s
  | Seg.marked _ _ s => s

/-- A document item: a structural markup fragment or a text node. -/
inductive DomItem where
  | structural (s : String) : DomItem
  | textLeaf (segs : List Seg) : DomItem
deriving DecidableEq, Repr

/-- Model of `TextNodeInfo` (lines 132-136): a text node (identified by its position
among the document's text nodes) with its flattened-stream offsets. -/
structure TextNodeInfo where
  leafIdx : Nat
  startOffset : Nat
  endOffset : Nat
deriving DecidableEq, Repr

/-- Total text length of a (possibly split) text node. -/
def leafLen (segs : List Seg) : Nat := (segs.map fun sg => (segText sg).length).sum

/-- The walk of `buildTextNodeMap` (lines 141-162): running offset over text
nodes in document order, skipping zero-length nodes. -/
def buildTextNodeMapGo : List DomItem → Nat → Nat → List TextNodeInfo
  | [], _, _ => []
  | DomItem.structural _ :: rest, idx, off => buildTextNodeMapGo rest idx off
  | DomItem.textLeaf segs :: rest, idx, off =>
    let len := leafLen segs
    if 0 < len then
      ⟨idx, off, off + len⟩ :: buildTextNodeMapGo rest (idx + 1) (off + len)
    else buildTextNodeMapGo rest (idx + 1) off

/-- Model of `buildTextNodeMap` (lines 141-162). -/
def buildTextNodeMap (doc : List DomItem) : List TextNodeInfo :=
  buildTextNodeMapGo doc 0 0

/-- The per-node wrapping of `wrapRangeInMark` (lines 181-221), acting on the
segment list of one text node.  `nodeInfo.node` always denotes the first
segment: splitting keeps the head piece in the original node.  The Nat
subtraction `rs - s0` is `Math.max(0, range.start - info.startOffset)`
(line 186); `min len (re - s0)` is line 187.  A `marked` head segment would
mean the node reference now lives inside a previously inserted mark; for the
disjoint, descending-start range lists the painter is fed, a node is enclosed
in a mark only by the last range that touches it, so that case never recurs
and is modelled as leaving the node unchanged. -/
def wrapLeaf (ids : List String) (color : String) (rs re s0 : Nat) :
    List Seg → List Seg
  | [] => []
  | seg :: rest =>
    let len := (segText seg).length
    let nodeStart := rs - s0
    let nodeEnd := min len (re - s0)
    if nodeEnd ≤ nodeStart then seg :: rest
    else
      match seg with
      | Seg.marked i c s => Seg.marked i c s :: rest
      | Seg.plain t =>
        if nodeStart = 0 ∧ nodeEnd = len then
          Seg.marked ids color t :: rest
        else if nodeStart = 0 then
          Seg.marked ids color (t.take nodeEnd) :: Seg.plain (t.drop nodeEnd) :: rest
        else if nodeEnd = len then
          Seg.plain (t.take nodeStart) :: Seg.marked ids color (t.drop nodeStart) :: rest
        else
          Seg.plain (t.take nodeStart) ::
            Seg.marked ids color ((t.drop nodeStart).take (nodeEnd - nodeStart)) ::
            Seg.plain (t.drop nodeEnd) :: rest

/-- Replace the `i`-th text node (counting text nodes only, in document
order) by the result of `f` on its segments. -/
def updateLeafGo (f : List Seg → List Seg) : List DomItem → Nat → List DomItem
  | [], _ => []
  | DomItem.structural s :: rest, i => DomItem.structural s :: updateLeafGo f rest i
  | DomItem.textLeaf segs :: rest, i =>
    match i with
    | 0 => DomItem.textLeaf (f segs) :: rest
    | Nat.succ i => DomItem.textLeaf segs :: updateLeafGo f rest i

/-- Model of `wrapRangeInMark` (lines 168-223): filter the prebuilt map for nodes
intersecting the range (line 174-176; empty filter returns unchanged, line
178), then process them in reverse document order (line 181). -/
def wrapRangeInMark (textNodes : List TextNodeInfo) (range : HighlightRange)
    (doc : List DomItem) : List DomItem :=
  let intersecting := textNodes.filter fun info =>
    range.start < info.endOffset ∧ info.startOffset < range.endPos
  intersecting.foldr
    (fun info d =>
      updateLeafGo
        (wrapLeaf range.annotationIds range.color range.start range.endPos
          info.startOffset)
        d info.leafIdx)
    doc

/-- Model of `[...ranges].sort((a, b) => b.start - a.start)` (line 252): descending by
`start`, stable. -/
def sortRangesDesc (ranges : List HighlightRange) : List HighlightRange :=
  List.insertionSort (fun a b => b.start ≤ a.start) ranges

/-- The painting core of `applyHighlightsToHtml` (lines 248-256): build the
text-node map once, then apply each range, descending by start, to the
document. -/
def applyHighlightsToHtmlDoc (doc : List DomItem) (annotations : List Annotation) :
    List DomItem :=
  let ranges := resolveOverlappingAnnotations annotations
  let textNodes := buildTextNodeMap doc
  (sortRangesDesc ranges).foldl (fun d r => wrapRangeInMark textNodes r d) doc

/-- Serialization of the text content of a text node, as `innerHTML` encodes
character data (`&`, `<`, `>` re-escaped). -/
def htmlTextEsc (s : List Char) : List Char :=
  s.flatMap fun c =>
    if c = '&' then "&amp;".data
    else if c = '<' then "&lt;".data
    else if c = '>' then "&gt;".data
    else [c]

/-- Serialization of one text-node segment; a marked segment serializes as
the `<mark>` element built at lines 195-198 around its text.  (Browser
attribute/style normalization during `innerHTML` is not modelled; no theorem
below depends on the serialized form of a painted document.) -/
def serializeSeg : Seg → String
  | Seg.plain s => ⟨htmlTextEsc s⟩
  | Seg.marked ids color s => createMarkOpen ids color ++ ⟨htmlTextEsc s⟩ ++ createMarkClose

/-- Model of `root.innerHTML` (line 258): concatenation of the items in document
order. -/
def serializeDoc : List DomItem → String
  | [] => ""
  | DomItem.structural s :: rest => s ++ serializeDoc rest
  | DomItem.textLeaf segs :: rest =>
    (segs.map serializeSeg).foldl (fun a b => a ++ b) "" ++ serializeDoc rest

/-- Model of `applyHighlightsToHtml` (lines 229-259), with the browser's HTML parser
abstracted as a `parse` parameter; `parse htmlContent = none` is the
`!root` case of lines 242-246. -/
def applyHighlightsToHtml (parse : String → Option (List DomItem))
    (htmlContent : String) (annotations : List Annotation) : String :=
  if annotations = [] then htmlContent
  else
    let ranges := resolveOverlappingAnnotations annotations
    if ranges = [] then htmlContent
    else
      match parse htmlContent with
      | none => htmlContent
      | some doc => serializeDoc (applyHighlightsToHtmlDoc doc annotations)

/-- The flattened visible-text stream of a document, markers ignored: the
concatenated text of its text nodes in document order. -/
def flattenDocText : List DomItem → List Char
  | [] => []
  | DomItem.structural _ :: rest => flattenDocText rest
  | DomItem.textLeaf segs :: rest => segs.flatMap segText ++ flattenDocText rest

/-- The structural skeleton of a document: every structural fragment (kept
verbatim) and the position of every text node. -/
def docShape : List DomItem → List (Option String)
  | [] => []
  | DomItem.structural s :: rest => some s :: docShape rest
  | DomItem.textLeaf _ :: rest => none :: docShape rest

/-! ## Concrete annotations used in counterexamples and witnesses -/

/-- Overlapping pair with equal `createdAt` and ids "a" < "z". -/
def annTieA : Annotation := ⟨"a", 0, 10, "#aa0000", 100⟩

/-- See `annTieA`. -/
def annTieZ : Annotation := ⟨"z", 5, 15, "#00bb00", 100⟩

/-- Identical-range pair for the permutation counterexample. -/
def annPermP : Annotation := ⟨"a", 0, 5, "#111111", 0⟩

/-- See `annPermP`. -/
def annPermQ : Annotation := ⟨"b", 0, 5, "#222222", 0⟩

/-- An annotation wholly beyond the 2-character content `"ab"`. -/
def annOut : Annotation := ⟨"x", 5, 7, "#123456", 0⟩

/-- A zero-length annotation (`startOffset = endOffset = 5`). -/
def annZero : Annotation := ⟨"x", 5, 5, "#111111", 1⟩

/-- A valid annotation processed together with `annZero`. -/
def annAfterZero : Annotation := ⟨"y", 10, 20, "#222222", 2⟩

/-- C4: `resolveOverlappingAnnotations` does not reject an annotation with
`startOffset >= endOffset`: no `InvalidAnnotationRange` condition exists on
this code path (the function's only result type is a span list).  A lone
zero-length annotation is silently dropped (first conjunct), and together
with a later valid annotation the zero-length annotation is never
deactivated, producing a phantom span `[5, 10)` attributed to it and
polluting the attribution of the valid span `[10, 20)` (second conjunct). -/
theorem resolve_zero_length_not_rejected :
    resolveOverlappingAnnotations [annZero] = [] ∧
    resolveOverlappingAnnotations [annZero, annAfterZero] =
      [⟨5, 10, ["x"], "#111111"⟩, ⟨10, 20, ["x", "y"], "#222222"⟩] := by
  decide

/-- C3 counterexample: two overlapping annotations with equal `createdAt`;
the lexicographically larger id is `"z"`, but the overlap span `[5, 10)`
takes the color of `"a"` — `createdAt` ties are not broken by id
comparison. -/
theorem color_tie_not_broken_by_id :
    annTieA.createdAt = annTieZ.createdAt ∧
    annTieA.id = "a" ∧ annTieZ.id = "z" ∧ ('a' : Char) < 'z' ∧
    resolveOverlappingAnnotations [annTieA, annTieZ] =
      [⟨0, 5, ["a"], "#aa0000"⟩, ⟨5, 10, ["a", "z"], "#aa0000"⟩,
        ⟨10, 15, ["z"], "#00bb00"⟩] ∧
    annTieA.color ≠ annTieZ.color := by
  decide

/-- C5 counterexample: two annotation lists that are permutations of each
other on which `resolveOverlappingAnnotations` returns different output (the
`annotationIds` order and the chosen color of the single span differ). -/
theorem resolve_not_permutation_invariant :
    List.Perm [annPermP, annPermQ] [annPermQ, annPermP] ∧
    resolveOverlappingAnnotations [annPermP, annPermQ] ≠
      resolveOverlappingAnnotations [annPermQ, annPermP] := by
  refine ⟨List.Perm.swap _ _ _, ?_⟩
  decide

/-- C9 counterexample: for a span wholly out of range the plain-text painter
does not skip marker emission — it appends an empty `<mark>` element. -/
theorem text_painter_marks_out_of_range_span :
    applyHighlightsToText "ab" [annOut] ≠ escapeHtml "ab" ∧
    applyHighlightsToText "ab" [annOut] =
      "ab<mark data-annotation-id=\"x\" data-annotation-ids=\"x\" style=\"background-color: #12345666;\"></mark>" := by
  refine ⟨?_, by decide⟩
  decide

/-- C8 counterexample: on unparseable markup the core itself returns the
original markup — it produces an output (the documented fallback) rather
than failing; no `MarkupParseError` is signalled (the function's only result
type is a string). -/
theorem html_painter_returns_input_on_parse_fail :
    applyHighlightsToHtml (fun _ => none) "<div><p" [⟨"a", 0, 2, "#000000", 1⟩] =
      "<div><p" := by
  decide

/-- C8 (amended): whenever the markup cannot be parsed, `applyHighlightsToHtml`
itself returns the original markup string unchanged, for every annotation
list — the fallback happens inside the core, and the core cannot fail. -/
theorem applyHighlightsToHtml_parse_fail (parse : String → Option (List DomItem))
    (htmlContent : String) (annotations : List Annotation)
    (h : parse htmlContent = none) :
    applyHighlightsToHtml parse htmlContent annotations = htmlContent := by
  unfold applyHighlightsToHtml
  by_cases he : annotations = []
  · simp [he]
  · simp [he, h]

/-- Witness for `applyHighlightsToHtml_parse_fail` at a concrete failing
parse, markup and annotation list. -/
theorem applyHighlightsToHtml_parse_fail_witness :
    applyHighlightsToHtml (fun _ => none) "<p" [⟨"x", 0, 1, "#abcdef", 0⟩] = "<p" :=
  applyHighlightsToHtml_parse_fail (fun _ => none) "<p" [⟨"x", 0, 1, "#abcdef", 0⟩] rfl

/-- C10: with an empty annotation list the two painters are asymmetric: the
markup painter is the identity on its input, while the plain-text painter
applies `escapeHtml` (the five-entity escaping) and is not the identity. -/
theorem empty_annotations_painter_asymmetry :
    (∀ (parse : String → Option (List DomItem)) (htmlContent : String),
        applyHighlightsToHtml parse htmlContent [] = htmlContent) ∧
    (∀ content : String, applyHighlightsToText content [] = escapeHtml content) ∧
    ¬(∀ content : String, applyHighlightsToText content [] = content) := by
  refine ⟨fun parse htmlContent => by simp [applyHighlightsToHtml],
    fun content => by simp [applyHighlightsToText], fun h => absurd (h "&") (by decide)⟩

/-! ## Structural properties of the sweep -/

lemma evLE_offset_le {x y : Event} (h : evLE x y) : x.offset ≤ y.offset := by
  rcases h with h | ⟨h, _⟩
  · exact Nat.le_of_lt h
  · exact Nat.le_of_eq h

lemma removeFirstById_subset {l : List Annotation} {i : String} :
    ∀ a ∈ removeFirstById l i, a ∈ l := by
  induction l with
  | nil => intro a ha; cases ha
  | cons b rest ih =>
    intro a ha
    unfold removeFirstById at ha
    by_cases hb : b.id = i
    · simp only [if_pos hb] at ha
      exact List.mem_cons_of_mem _ ha
    · simp only [if_neg hb, List.mem_cons] at ha
      rcases ha with ha | ha
      · exact ha ▸ List.mem_cons_self _ _
      · exact List.mem_cons_of_mem _ (ih a ha)

lemma mostRecent_mem : ∀ (t : List Annotation) (h : Annotation),
    mostRecent h t ∈ h :: t := by
  intro t
  induction t with
  | nil => intro h; simp [mostRecent]
  | cons a t ih =>
    intro h
    show mostRecent (if a.createdAt > h.createdAt then a else h) t ∈ h :: a :: t
    rcases List.mem_cons.mp (ih (if a.createdAt > h.createdAt then a else h)) with hm | hm
    · rw [hm]
      by_cases hc : a.createdAt > h.createdAt
      · rw [if_pos hc]
        exact List.mem_cons_of_mem _ (List.mem_cons_self _ _)
      · rw [if_neg hc]
        exact List.mem_cons_self _ _
    · exact List.mem_cons_of_mem _ (List.mem_cons_of_mem _ hm)

lemma mostRecent_createdAt_le : ∀ (t : List Annotation) (h : Annotation),
    ∀ b ∈ h :: t, b.createdAt ≤ (mostRecent h t).createdAt := by
  intro t
  induction t with
  | nil =>
    intro h b hb
    rcases List.mem_cons.mp hb with hb | hb
    · exact hb ▸ Nat.le_refl _
    · cases hb
  | cons a t ih =>
    intro h b hb
    show b.createdAt ≤ (mostRecent (if a.createdAt > h.createdAt then a else h) t).createdAt
    have hm : (if a.createdAt > h.createdAt then a else h).createdAt ≤
        (mostRecent (if a.createdAt > h.createdAt then a else h) t).createdAt :=
      ih _ _ (List.mem_cons_self _ _)
    have hh : h.createdAt ≤ (if a.createdAt > h.createdAt then a else h).createdAt := by
      by_cases hc : a.createdAt > h.createdAt
      · rw [if_pos hc]; exact Nat.le_of_lt hc
      · rw [if_neg hc]
    have ha : a.createdAt ≤ (if a.createdAt > h.createdAt then a else h).createdAt := by
      by_cases hc : a.createdAt > h.createdAt
      · rw [if_pos hc]
      · rw [if_neg hc]; exact Nat.le_of_not_lt hc
    rcases List.mem_cons.mp hb with rfl | hb
    · exact Nat.le_trans hh hm
    · rcases List.mem_cons.mp hb with rfl | hb
      · exact Nat.le_trans ha hm
      · exact ih _ b (List.mem_cons_of_mem _ hb)

lemma getMostRecentColor_cons (h : Annotation) (t : List Annotation) :
    getMostRecentColor (h :: t) = (mostRecent h t).color := rfl

lemma sweepStep_lastOffset (st : SweepState) (e : Event) :
    (sweepStep st e).lastOffset = e.offset := rfl

lemma sweepStep_ranges (st : SweepState) (e : Event) :
    (sweepStep st e).ranges =
      if st.active ≠ [] ∧ st.lastOffset < e.offset then
        st.ranges ++
          [⟨st.lastOffset, e.offset, st.active.map (fun a => a.id),
            getMostRecentColor st.active⟩]
      else st.ranges := rfl

lemma sweepStep_active (st : SweepState) (e : Event) :
    (sweepStep st e).active =
      match e.type with
      | EventType.start => st.active ++ [e.annotation]
      | EventType.stop => removeFirstById st.active e.annotation.id := rfl

/-- Structural invariant of the sweep fold: starting from a state whose
emitted ranges are non-degenerate, bounded by `lastOffset`, attributed to
input annotations, and pairwise disjoint in emission order, processing any
sorted remaining event list preserves all of it. -/
lemma sweep_fold_structure (anns : List Annotation) :
    ∀ (E : List Event) (st : SweepState),
      E.Pairwise evLE →
      (∀ e ∈ E, st.lastOffset ≤ e.offset) →
      (∀ e ∈ E, e.annotation ∈ anns) →
      (∀ a ∈ st.active, a ∈ anns) →
      (∀ r ∈ st.ranges,
        r.start < r.endPos ∧ r.endPos ≤ st.lastOffset ∧
        (∀ i ∈ r.annotationIds, ∃ a ∈ anns, a.id = i) ∧
        (∃ a ∈ anns, r.color = a.color)) →
      st.ranges.Pairwise (fun r s => r.endPos ≤ s.start) →
      (∀ r ∈ (E.foldl sweepStep st).ranges,
        r.start < r.endPos ∧ r.endPos ≤ (E.foldl sweepStep st).lastOffset ∧
        (∀ i ∈ r.annotationIds, ∃ a ∈ anns, a.id = i) ∧
        (∃ a ∈ anns, r.color = a.color)) ∧
      (E.foldl sweepStep st).ranges.Pairwise (fun r s => r.endPos ≤ s.start) := by
  intro E
  induction E with
  | nil =>
    intro st _ _ _ _ h5 h6
    exact ⟨h5, h6⟩
  | cons e E ih =>
    intro st hs hlo hown hact h5 h6
    rw [List.foldl_cons]
    have hsE : E.Pairwise evLE := (List.pairwise_cons.mp hs).2
    have hee : ∀ x ∈ E, evLE e x := (List.pairwise_cons.mp hs).1
    have hloe : st.lastOffset ≤ e.offset := hlo e (List.mem_cons_self _ _)
    apply ih (sweepStep st e) hsE
    · intro x hx
      rw [sweepStep_lastOffset]
      exact evLE_offset_le (hee x hx)
    · intro x hx
      exact hown x (List.mem_cons_of_mem _ hx)
    · intro a ha
      rw [sweepStep_active] at ha
      cases ht : e.type with
      | start =>
        rw [ht] at ha
        rcases List.mem_append.mp ha with ha | ha
        · exact hact a ha
        · rcases List.mem_singleton.mp ha with rfl
          exact hown e (List.mem_cons_self _ _)
      | stop =>
        rw [ht] at ha
        exact hact a (removeFirstById_subset a ha)
    · intro r hr
      rw [sweepStep_ranges] at hr
      rw [sweepStep_lastOffset]
      by_cases hcond : st.active ≠ [] ∧ st.lastOffset < e.offset
      · rw [if_pos hcond] at hr
        rcases List.mem_append.mp hr with hr | hr
        · rcases h5 r hr with ⟨ha1, ha2, ha3, ha4⟩
          exact ⟨ha1, Nat.le_trans ha2 hloe, ha3, ha4⟩
        · rcases List.mem_singleton.mp hr with rfl
          refine ⟨hcond.2, Nat.le_refl _, ?_, ?_⟩
          · intro i hi
            rcases List.mem_map.mp hi with ⟨a, ha, rfl⟩
            exact ⟨a, hact a ha, rfl⟩
          · rcases List.exists_cons_of_ne_nil hcond.1 with ⟨h0, t0, hht⟩
            rw [hht, getMostRecentColor_cons]
            refine ⟨mostRecent h0 t0, ?_, rfl⟩
            exact hact _ (hht ▸ mostRecent_mem t0 h0)
      · rw [if_neg hcond] at hr
        rcases h5 r hr with ⟨ha1, ha2, ha3, ha4⟩
        exact ⟨ha1, Nat.le_trans ha2 hloe, ha3, ha4⟩
    · rw [sweepStep_ranges]
      by_cases hcond : st.active ≠ [] ∧ st.lastOffset < e.offset
      · rw [if_pos hcond]
        rw [List.pairwise_append]
        refine ⟨h6, List.pairwise_singleton _ _, ?_⟩
        intro r hr r' hr'
        rcases List.mem_singleton.mp hr' with rfl
        exact (h5 r hr).2.1
      · rw [if_neg hcond]
        exact h6

lemma mem_rawEvents {anns : List Annotation} {e : Event}
    (h : e ∈ rawEvents anns) : e.annotation ∈ anns := by
  rcases List.mem_flatMap.mp h with ⟨a, ha, he⟩
  rcases List.mem_cons.mp he with rfl | he
  · exact ha
  · rcases List.mem_singleton.mp he with rfl
    exact ha

lemma mem_sortEvents {l : List Event} {e : Event} : e ∈ sortEvents l ↔ e ∈ l :=
  (List.perm_insertionSort evLE l).mem_iff

lemma sortEvents_sorted (l : List Event) : (sortEvents l).Pairwise evLE :=
  List.sorted_insertionSort evLE l

/-- The adjacent, non-overlapping pair of the spec's Example 2. -/
def annAdjA : Annotation := ⟨"A", 0, 5, "#111111", 1⟩

/-- See `annAdjA`. -/
def annAdjB : Annotation := ⟨"B", 5, 10, "#222222", 2⟩

/-- C2: for every annotation list the resolver's output spans are pairwise
disjoint in emission order (`r.endPos ≤ s.start`), contain no zero-length
span, and are sorted by strictly ascending `start`; and the adjacent pair
`A=[0,5)`, `B=[5,10)` yields exactly the two expected spans, unmerged, with
no zero-length span at offset 5. -/
theorem resolve_spans_disjoint_sorted_nonzero (annotations : List Annotation)
    (_hvalid : ∀ a ∈ annotations, a.startOffset < a.endOffset) :
    (resolveOverlappingAnnotations annotations).Pairwise
      (fun r s => r.endPos ≤ s.start) ∧
    (∀ r ∈ resolveOverlappingAnnotations annotations, r.start < r.endPos) ∧
    (resolveOverlappingAnnotations annotations).Pairwise
      (fun r s => r.start < s.start) ∧
    resolveOverlappingAnnotations [annAdjA, annAdjB] =
      [⟨0, 5, ["A"], "#111111"⟩, ⟨5, 10, ["B"], "#222222"⟩] := by
  have hex : resolveOverlappingAnnotations [annAdjA, annAdjB] =
      [⟨0, 5, ["A"], "#111111"⟩, ⟨5, 10, ["B"], "#222222"⟩] := by decide
  by_cases hnil : annotations = []
  · subst hnil
    refine ⟨?_, ?_, ?_, hex⟩
    · exact List.Pairwise.nil
    · intro r hr; cases hr
    · exact List.Pairwise.nil
  · have hres : resolveOverlappingAnnotations annotations =
        ((sortEvents (rawEvents annotations)).foldl sweepStep ⟨[], [], 0⟩).ranges := by
      unfold resolveOverlappingAnnotations
      rw [if_neg hnil]
    have h := sweep_fold_structure annotations (sortEvents (rawEvents annotations))
      ⟨[], [], 0⟩ (sortEvents_sorted _)
      (fun e _ => Nat.zero_le _)
      (fun e he => mem_rawEvents (mem_sortEvents.mp he))
      (fun a ha => by cases ha)
      (fun r hr => by cases hr)
      List.Pairwise.nil
    refine ⟨hres ▸ h.2, ?_, ?_, hex⟩
    · intro r hr
      exact (h.1 r (hres ▸ hr)).1
    · rw [hres]
      refine List.Pairwise.imp_of_mem ?_ h.2
      intro r s hr hs hle
      exact Nat.lt_of_lt_of_le (h.1 r hr).1 hle

/-- Witness for `resolve_spans_disjoint_sorted_nonzero` at the concrete
adjacent pair. -/
theorem resolve_spans_disjoint_sorted_nonzero_witness :
    (resolveOverlappingAnnotations [annAdjA, annAdjB]).Pairwise
      (fun r s => r.endPos ≤ s.start) ∧
    (∀ r ∈ resolveOverlappingAnnotations [annAdjA, annAdjB], r.start < r.endPos) ∧
    (resolveOverlappingAnnotations [annAdjA, annAdjB]).Pairwise
      (fun r s => r.start < s.start) ∧
    resolveOverlappingAnnotations [annAdjA, annAdjB] =
      [⟨0, 5, ["A"], "#111111"⟩, ⟨5, 10, ["B"], "#222222"⟩] :=
  resolve_spans_disjoint_sorted_nonzero [annAdjA, annAdjB] (by decide)

/-! ## Escaping, unescaping, and marker stripping -/

/-- Single-pass character escape; the composition of the five sequential
replacements of `escapeHtml` acts on each character independently because no
replacement string contains a character replaced by a later pass. -/
def escChar (c : Char) : List Char :=
  if c = '&' then "&amp;".data
  else if c = '<' then "&lt;".data
  else if c = '>' then "&gt;".data
  else if c = '"' then "&quot;".data
  else if c = '\'' then "&#039;".data
  else [c]

lemma replaceCharL_append (c : Char) (r : List Char) :
    ∀ xs ys, replaceCharL c r (xs ++ ys) = replaceCharL c r xs ++ replaceCharL c r ys := by
  intro xs
  induction xs with
  | nil => intro ys; simp [replaceCharL]
  | cons d xs ih => intro ys; simp [replaceCharL, ih]

lemma escData_append (xs ys : List Char) :
    escData (xs ++ ys) = escData xs ++ escData ys := by
  simp only [escData, replaceCharL_append]

lemma escData_singleton (c : Char) : escData [c] = escChar c := by
  by_cases h1 : c = '&'
  · subst h1; decide
  by_cases h2 : c = '<'
  · subst h2; decide
  by_cases h3 : c = '>'
  · subst h3; decide
  by_cases h4 : c = '"'
  · subst h4; decide
  by_cases h5 : c = '\''
  · subst h5; decide
  simp [escData, replaceCharL, escChar, h1, h2, h3, h4, h5]

lemma escData_eq_flatMap (l : List Char) : escData l = l.flatMap escChar := by
  induction l with
  | nil => decide
  | cons c l ih =>
    have : escData (c :: l) = escData [c] ++ escData l := escData_append [c] l
    rw [this, escData_singleton, ih, List.flatMap_cons]

lemma escChar_ne_lt_gt (c : Char) : ∀ d ∈ escChar c, d ≠ '<' ∧ d ≠ '>' := by
  by_cases h1 : c = '&'
  · subst h1; decide
  by_cases h2 : c = '<'
  · subst h2; decide
  by_cases h3 : c = '>'
  · subst h3; decide
  by_cases h4 : c = '"'
  · subst h4; decide
  by_cases h5 : c = '\''
  · subst h5; decide
  intro d hd
  rw [escChar, if_neg h1, if_neg h2, if_neg h3, if_neg h4, if_neg h5] at hd
  rcases List.mem_singleton.mp hd with rfl
  exact ⟨h2, h3⟩

lemma escData_ne_lt_gt (l : List Char) : ∀ d ∈ escData l, d ≠ '<' ∧ d ≠ '>' := by
  rw [escData_eq_flatMap]
  intro d hd
  rcases List.mem_flatMap.mp hd with ⟨c, _, hdc⟩
  exact escChar_ne_lt_gt c d hdc

lemma hasPre_amp_pos (l : List Char) :
    hasPre ['a', 'm', 'p', ';'] ('a' :: 'm' :: 'p' :: ';' :: l) = true := rfl

lemma hasPre_lt_pos (l : List Char) :
    hasPre ['l', 't', ';'] ('l' :: 't' :: ';' :: l) = true := rfl

lemma hasPre_gt_pos (l : List Char) :
    hasPre ['g', 't', ';'] ('g' :: 't' :: ';' :: l) = true := rfl

lemma hasPre_quot_pos (l : List Char) :
    hasPre ['q', 'u', 'o', 't', ';'] ('q' :: 'u' :: 'o' :: 't' :: ';' :: l) = true := rfl

lemma hasPre_apos_pos (l : List Char) :
    hasPre ['#', '0', '3', '9', ';'] ('#' :: '0' :: '3' :: '9' :: ';' :: l) = true := rfl

lemma hp_a_l (l : List Char) : hasPre ['a', 'm', 'p', ';'] ('l' :: l) = false := rfl
lemma hp_a_g (l : List Char) : hasPre ['a', 'm', 'p', ';'] ('g' :: l) = false := rfl
lemma hp_a_q (l : List Char) : hasPre ['a', 'm', 'p', ';'] ('q' :: l) = false := rfl
lemma hp_a_h (l : List Char) : hasPre ['a', 'm', 'p', ';'] ('#' :: l) = false := rfl
lemma hp_l_g (l : List Char) : hasPre ['l', 't', ';'] ('g' :: l) = false := rfl
lemma hp_l_q (l : List Char) : hasPre ['l', 't', ';'] ('q' :: l) = false := rfl
lemma hp_l_h (l : List Char) : hasPre ['l', 't', ';'] ('#' :: l) = false := rfl
lemma hp_g_q (l : List Char) : hasPre ['g', 't', ';'] ('q' :: l) = false := rfl
lemma hp_g_h (l : List Char) : hasPre ['g', 't', ';'] ('#' :: l) = false := rfl
lemma hp_q_h (l : List Char) : hasPre ['q', 'u', 'o', 't', ';'] ('#' :: l) = false := rfl

lemma unesc_escChar (c : Char) (l : List Char) :
    unescChars (escChar c ++ l) = c :: unescChars l := by
  by_cases h1 : c = '&'
  · subst h1; simp [escChar, unescChars, hasPre_amp_pos]
  by_cases h2 : c = '<'
  · subst h2; simp [escChar, unescChars, hp_a_l, hasPre_lt_pos]
  by_cases h3 : c = '>'
  · subst h3; simp [escChar, unescChars, hp_a_g, hp_l_g, hasPre_gt_pos]
  by_cases h4 : c = '"'
  · subst h4; simp [escChar, unescChars, hp_a_q, hp_l_q, hp_g_q, hasPre_quot_pos]
  by_cases h5 : c = '\''
  · subst h5; simp [escChar, unescChars, hp_a_h, hp_l_h, hp_g_h, hp_q_h, hasPre_apos_pos]
  rw [escChar, if_neg h1, if_neg h2, if_neg h3, if_neg h4, if_neg h5, List.singleton_append]
  simp only [unescChars]
  rw [if_neg h1]

lemma unesc_escData (l : List Char) : unescChars (escData l) = l := by
  rw [escData_eq_flatMap]
  induction l with
  | nil => simp [unescChars]
  | cons c l ih => rw [List.flatMap_cons, unesc_escChar, ih]

lemma stripTags_nil : stripTags [] = [] := by simp [stripTags]

lemma stripTags_cons_ne (c : Char) (l : List Char) (h : c ≠ '<') :
    stripTags (c :: l) = c :: stripTags l := by
  simp only [stripTags]
  rw [if_neg h]

lemma stripTags_lt (l : List Char) : stripTags ('<' :: l) = stripTagsIn l := by
  simp [stripTags]

lemma stripTagsIn_cons_ne (c : Char) (l : List Char) (h : c ≠ '>') :
    stripTagsIn (c :: l) = stripTagsIn l := by
  simp only [stripTagsIn]
  rw [if_neg h]

lemma stripTagsIn_gt (l : List Char) : stripTagsIn ('>' :: l) = stripTags l := by
  simp [stripTagsIn]

lemma stripTags_append_of_ne_lt :
    ∀ (xs ys : List Char), (∀ d ∈ xs, d ≠ '<') →
      stripTags (xs ++ ys) = xs ++ stripTags ys := by
  intro xs
  induction xs with
  | nil => intro ys _; rfl
  | cons d xs ih =>
    intro ys h
    rw [List.cons_append, stripTags_cons_ne d _ (h d (List.mem_cons_self _ _)),
      ih ys fun e he => h e (List.mem_cons_of_mem _ he), List.cons_append]

lemma stripTags_of_ne_lt (xs : List Char) (h : ∀ d ∈ xs, d ≠ '<') :
    stripTags xs = xs := by
  have := stripTags_append_of_ne_lt xs [] h
  rwa [List.append_nil, stripTags_nil, List.append_nil] at this

lemma stripTagsIn_append_of_ne_gt :
    ∀ (xs ys : List Char), (∀ d ∈ xs, d ≠ '>') →
      stripTagsIn (xs ++ ys) = stripTagsIn ys := by
  intro xs
  induction xs with
  | nil => intro ys _; rfl
  | cons d xs ih =>
    intro ys h
    rw [List.cons_append, stripTagsIn_cons_ne d _ (h d (List.mem_cons_self _ _)),
      ih ys fun e he => h e (List.mem_cons_of_mem _ he)]

lemma mem_joinComma_data :
    ∀ (ids : List String), (∀ i ∈ ids, '>' ∉ i.data) → '>' ∉ (joinComma ids).data := by
  intro ids
  induction ids with
  | nil => intro _ h; exact absurd h (by decide)
  | cons s rest ih =>
    intro h
    cases rest with
    | nil =>
      exact h s (List.mem_cons_self _ _)
    | cons r rest' =>
      show '>' ∉ (s ++ "," ++ joinComma (r :: rest')).data
      rw [String.data_append, String.data_append]
      intro hm
      rcases List.mem_append.mp hm with hm | hm
      · rcases List.mem_append.mp hm with hm | hm
        · exact h s (List.mem_cons_self _ _) hm
        · revert hm; decide
      · exact ih (fun i hi => h i (List.mem_cons_of_mem _ hi)) hm

lemma headD_no_gt (ids : List String) (h : ∀ i ∈ ids, '>' ∉ i.data) :
    '>' ∉ (ids.headD "undefined").data := by
  cases ids with
  | nil => decide
  | cons s rest => exact h s (List.mem_cons_self _ _)

/-- Stripping consumes an opening marker entirely: the only `>` in
`createMarkOpen`'s output is its final character, provided ids and color
contain none. -/
lemma stripTags_markOpen (ids : List String) (color : String) (ys : List Char)
    (hids : ∀ i ∈ ids, '>' ∉ i.data) (hcolor : '>' ∉ color.data) :
    stripTags ((createMarkOpen ids color).data ++ ys) = stripTags ys := by
  have hshape : (createMarkOpen ids color).data ++ ys =
      '<' :: (("mark data-annotation-id=\"" : String).data ++
        ((ids.headD "undefined").data ++
          (("\" data-annotation-ids=\"" : String).data ++
            ((joinComma ids).data ++
              (("\" style=\"background-color: " : String).data ++
                (color.data ++ (("66" : String).data ++
                  ([';', '\"'] ++ ('>' :: ys))))))))) := by
    simp [createMarkOpen, String.data_append]
  rw [hshape, stripTags_lt]
  rw [stripTagsIn_append_of_ne_gt _ _ (by decide)]
  rw [stripTagsIn_append_of_ne_gt _ _ (fun d hd => by
    intro hq; exact headD_no_gt ids hids (hq ▸ hd))]
  rw [stripTagsIn_append_of_ne_gt _ _ (by decide)]
  rw [stripTagsIn_append_of_ne_gt _ _ (fun d hd => by
    intro hq; exact mem_joinComma_data ids hids (hq ▸ hd))]
  rw [stripTagsIn_append_of_ne_gt _ _ (by decide)]
  rw [stripTagsIn_append_of_ne_gt _ _ (fun d hd => by
    intro hq; exact hcolor (hq ▸ hd))]
  rw [stripTagsIn_append_of_ne_gt _ _ (by decide)]
  rw [stripTagsIn_append_of_ne_gt _ _ (by decide)]
  rw [stripTagsIn_gt]

lemma stripTags_markClose (ys : List Char) :
    stripTags (createMarkClose.data ++ ys) = stripTags ys := by
  rw [show createMarkClose.data = '<' :: ("/mark" : String).data ++ ['>'] from rfl]
  rw [List.cons_append, List.cons_append, stripTags_lt, List.append_assoc,
    stripTagsIn_append_of_ne_gt _ _ (by decide), List.singleton_append, stripTagsIn_gt]

/-! ## Closed form of the text painter and the round trip -/

/-- The output the loop body of `applyHighlightsToText` appends for one
range. -/
def pieceOf (content : List Char) (li : Nat) (r : HighlightRange) : List Char :=
  (if li < r.start then escData (sliceL content li r.start) else []) ++
    ((createMarkOpen r.annotationIds r.color).data ++
      (escData (sliceL content r.start r.endPos) ++ createMarkClose.data))

/-- Everything the loop of `applyHighlightsToText` appends, range by range. -/
def piecesOf (content : List Char) (li : Nat) : List HighlightRange → List Char
  | [] => []
  | r :: rs => pieceOf content li r ++ piecesOf content r.endPos rs

/-- The final `lastIndex` of the loop of `applyHighlightsToText`. -/
def lastOf (li : Nat) : List HighlightRange → Nat
  | [] => li
  | r :: rs => lastOf r.endPos rs

lemma paintStep_eq (content x : List Char) (li : Nat) (r : HighlightRange) :
    paintStep content (x, li) r = (x ++ pieceOf content li r, r.endPos) := by
  unfold paintStep pieceOf
  by_cases h : li < r.start
  · simp [h, List.append_assoc]
  · simp [h, List.append_assoc]

lemma foldl_paint_eq (content : List Char) :
    ∀ (rs : List HighlightRange) (x : List Char) (li : Nat),
      rs.foldl (paintStep content) (x, li) =
        (x ++ piecesOf content li rs, lastOf li rs) := by
  intro rs
  induction rs with
  | nil => intro x li; simp [piecesOf, lastOf]
  | cons r rs ih =>
    intro x li
    rw [List.foldl_cons, paintStep_eq, ih]
    simp [piecesOf, lastOf, List.append_assoc]

lemma sliceL_self (l : List Char) (a : Nat) : sliceL l a a = [] := by
  unfold sliceL
  apply List.drop_eq_nil_of_le
  rw [List.length_take]
  exact Nat.min_le_left _ _

lemma sliceL_glue (l : List Char) (a b c : Nat) (hab : a ≤ b) (hbc : b ≤ c) :
    sliceL l a b ++ sliceL l b c = sliceL l a c := by
  unfold sliceL
  have h1 : l.take b = (l.take c).take b := by
    rw [List.take_take, Nat.min_eq_left hbc]
  rw [h1]
  have h2 : (l.take c).drop b = ((l.take c).drop a).drop (b - a) := by
    rw [List.drop_drop]
    congr 1
    omega
  rw [h2, List.drop_take, List.take_append_drop]

/-- The loop precondition: `lastIndex` is below the next range's start, and
ranges are ordered; exactly what the resolver guarantees. -/
def lowerChain : Nat → List HighlightRange → Prop
  | _, [] => True
  | li, r :: rs => li ≤ r.start ∧ r.start ≤ r.endPos ∧ lowerChain r.endPos rs

lemma lowerChain_of_pairwise :
    ∀ (l : List HighlightRange) (li : Nat),
      l.Pairwise (fun r s => r.endPos ≤ s.start) →
      (∀ r ∈ l, r.start ≤ r.endPos) →
      (∀ r ∈ l, li ≤ r.start) → lowerChain li l := by
  intro l
  induction l with
  | nil => intro li _ _ _; trivial
  | cons r rs ih =>
    intro li hp hv hlo
    show li ≤ r.start ∧ r.start ≤ r.endPos ∧ lowerChain r.endPos rs
    refine ⟨hlo r (List.mem_cons_self _ _), hv r (List.mem_cons_self _ _), ?_⟩
    exact ih r.endPos (List.pairwise_cons.mp hp).2
      (fun s hs => hv s (List.mem_cons_of_mem _ hs))
      (fun s hs => (List.pairwise_cons.mp hp).1 s hs)

lemma lastOf_ge : ∀ (rs : List HighlightRange) (li : Nat),
    lowerChain li rs → li ≤ lastOf li rs := by
  intro rs
  induction rs with
  | nil => intro li _; exact Nat.le_refl _
  | cons r rs ih =>
    intro li hlc
    obtain ⟨h1, h2, h3⟩ := hlc
    show li ≤ lastOf r.endPos rs
    exact Nat.le_trans (Nat.le_trans h1 h2) (ih r.endPos h3)

lemma strip_piecesOf (content : List Char) :
    ∀ (rs : List HighlightRange) (li : Nat) (tail : List Char),
      (∀ r ∈ rs, (∀ i ∈ r.annotationIds, '>' ∉ i.data) ∧ '>' ∉ r.color.data) →
      lowerChain li rs →
      stripTags (piecesOf content li rs ++ tail) =
        escData (sliceL content li (lastOf li rs)) ++ stripTags tail := by
  intro rs
  induction rs with
  | nil =>
    intro li tail _ _
    show stripTags ([] ++ tail) = escData (sliceL content li li) ++ stripTags tail
    rw [List.nil_append, sliceL_self, show escData [] = [] from rfl, List.nil_append]
  | cons r rs ih =>
    intro li tail hclean hlc
    obtain ⟨h1, h2, h3⟩ := hlc
    show stripTags ((pieceOf content li r ++ piecesOf content r.endPos rs) ++ tail) =
      escData (sliceL content li (lastOf r.endPos rs)) ++ stripTags tail
    rw [List.append_assoc]
    unfold pieceOf
    rw [List.append_assoc]
    have hgap : (if li < r.start then escData (sliceL content li r.start) else []) =
        escData (sliceL content li r.start) := by
      by_cases h : li < r.start
      · rw [if_pos h]
      · rw [if_neg h]
        have hEq : li = r.start := Nat.le_antisymm h1 (Nat.le_of_not_lt h)
        rw [← hEq, sliceL_self]
        rfl
    rw [hgap]
    rw [stripTags_append_of_ne_lt _ _ (fun d hd => (escData_ne_lt_gt _ d hd).1)]
    rw [List.append_assoc]
    rw [stripTags_markOpen _ _ _ (hclean r (List.mem_cons_self _ _)).1
      (hclean r (List.mem_cons_self _ _)).2]
    rw [List.append_assoc]
    rw [stripTags_append_of_ne_lt _ _ (fun d hd => (escData_ne_lt_gt _ d hd).1)]
    rw [stripTags_markClose]
    rw [ih r.endPos tail (fun s hs => hclean s (List.mem_cons_of_mem _ hs)) h3]
    have hN : r.endPos ≤ lastOf r.endPos rs := lastOf_ge rs r.endPos h3
    rw [← List.append_assoc, ← escData_append,
      sliceL_glue content li r.start r.endPos h1 h2]
    rw [← List.append_assoc, ← escData_append,
      sliceL_glue content li r.endPos (lastOf r.endPos rs)
        (Nat.le_trans h1 h2) hN]

/-- Everything the sweep emits is structurally sound: spans are disjoint in
order, non-degenerate, and attributed to input annotations.  (No hypotheses:
this holds even for invalid annotation ranges.) -/
lemma resolve_structure (annotations : List Annotation) :
    (resolveOverlappingAnnotations annotations).Pairwise
      (fun r s => r.endPos ≤ s.start) ∧
    (∀ r ∈ resolveOverlappingAnnotations annotations, r.start < r.endPos) ∧
    (∀ r ∈ resolveOverlappingAnnotations annotations,
      (∀ i ∈ r.annotationIds, ∃ a ∈ annotations, a.id = i) ∧
      (∃ a ∈ annotations, r.color = a.color)) := by
  by_cases hnil : annotations = []
  · subst hnil
    refine ⟨List.Pairwise.nil, ?_, ?_⟩ <;> intro r hr <;> cases hr
  · have hres : resolveOverlappingAnnotations annotations =
        ((sortEvents (rawEvents annotations)).foldl sweepStep ⟨[], [], 0⟩).ranges := by
      unfold resolveOverlappingAnnotations
      rw [if_neg hnil]
    have h := sweep_fold_structure annotations (sortEvents (rawEvents annotations))
      ⟨[], [], 0⟩ (sortEvents_sorted _)
      (fun e _ => Nat.zero_le _)
      (fun e he => mem_rawEvents (mem_sortEvents.mp he))
      (fun a ha => by cases ha)
      (fun r hr => by cases hr)
      List.Pairwise.nil
    rw [hres]
    exact ⟨h.2, fun r hr => (h.1 r hr).1, fun r hr => ⟨(h.1 r hr).2.2.1, (h.1 r hr).2.2.2⟩⟩

/-- C6: plain-text painter round trip.  For every content string and every
annotation list whose ids and colors contain no `>` character (the only
character that could prematurely close a marker), removing all `<`...`>`
markers from `applyHighlightsToText`'s output and undoing the five-entity
escaping reproduces the content exactly. -/
theorem paintText_round_trip (content : String) (annotations : List Annotation)
    (hclean : ∀ a ∈ annotations, '>' ∉ a.id.data ∧ '>' ∉ a.color.data) :
    String.mk (unescChars (stripTags (applyHighlightsToText content annotations).data)) =
      content := by
  have hescOnly :
      String.mk (unescChars (stripTags (escapeHtml content).data)) = content := by
    show String.mk (unescChars (stripTags (escData content.data))) = content
    rw [stripTags_of_ne_lt _ (fun d hd => (escData_ne_lt_gt _ d hd).1), unesc_escData]
  unfold applyHighlightsToText
  by_cases hnil : annotations = []
  · rw [if_pos hnil]
    exact hescOnly
  rw [if_neg hnil]
  by_cases hrnil : resolveOverlappingAnnotations annotations = []
  · simp only [hrnil, if_pos]
    exact hescOnly
  simp only [if_neg hrnil]
  obtain ⟨hp, hv, hattr⟩ := resolve_structure annotations
  set ranges := resolveOverlappingAnnotations annotations with hr
  have hcleanR : ∀ r ∈ ranges,
      (∀ i ∈ r.annotationIds, '>' ∉ i.data) ∧ '>' ∉ r.color.data := by
    intro r hrm
    constructor
    · intro i hi
      rcases (hattr r hrm).1 i hi with ⟨a, ha, rfl⟩
      exact (hclean a ha).1
    · rcases (hattr r hrm).2 with ⟨a, ha, hc⟩
      rw [hc]
      exact (hclean a ha).2
  have hlc : lowerChain 0 ranges :=
    lowerChain_of_pairwise ranges 0 hp
      (fun r hrm => Nat.le_of_lt (hv r hrm)) (fun r _ => Nat.zero_le _)
  rw [foldl_paint_eq]
  set N := lastOf 0 ranges with hN
  by_cases hlen : N < content.data.length
  · rw [if_pos hlen]
    show String.mk (unescChars (stripTags
      (([] ++ piecesOf content.data 0 ranges) ++ escData (content.data.drop N)))) = content
    rw [List.nil_append,
      strip_piecesOf content.data ranges 0 _ hcleanR hlc,
      stripTags_of_ne_lt _ (fun d hd => (escData_ne_lt_gt _ d hd).1),
      ← escData_append]
    have : sliceL content.data 0 N ++ content.data.drop N = content.data := by
      unfold sliceL
      rw [List.drop_zero, List.take_append_drop]
    rw [this, unesc_escData]
  · rw [if_neg hlen]
    show String.mk (unescChars (stripTags ([] ++ piecesOf content.data 0 ranges))) = content
    rw [List.nil_append, ← List.append_nil (piecesOf content.data 0 ranges),
      strip_piecesOf content.data ranges 0 _ hcleanR hlc,
      stripTags_nil, List.append_nil]
    have : sliceL content.data 0 N = content.data := by
      unfold sliceL
      rw [List.drop_zero, List.take_of_length_le (Nat.le_of_not_lt hlen)]
    rw [this, unesc_escData]

/-- Witness for `paintText_round_trip` on content exercising escaping and an
overlap, with two annotations. -/
theorem paintText_round_trip_witness :
    String.mk (unescChars (stripTags
      (applyHighlightsToText "a<b&'c\"d>e"
        [⟨"idA", 1, 4, "#ffee00", 3⟩, ⟨"idB", 3, 7, "#00ffcc", 5⟩]).data)) =
      "a<b&'c\"d>e" :=
  paintText_round_trip "a<b&'c\"d>e"
    [⟨"idA", 1, 4, "#ffee00", 3⟩, ⟨"idB", 3, 7, "#00ffcc", 5⟩] (by decide)

/-! ## Out-of-range spans (clipping and skipping) -/

lemma resolve_single (a : Annotation) (h : a.startOffset < a.endOffset) :
    resolveOverlappingAnnotations [a] =
      [⟨a.startOffset, a.endOffset, [a.id], a.color⟩] := by
  unfold resolveOverlappingAnnotations
  rw [if_neg (by simp)]
  have hraw : rawEvents [a] = [startEv a, stopEv a] := by
    simp [rawEvents]
  have hsort : sortEvents [startEv a, stopEv a] = [startEv a, stopEv a] := by
    unfold sortEvents
    simp [List.insertionSort, List.orderedInsert]
    intro hc
    exact absurd (Or.inl h) hc
  rw [hraw, hsort]
  show (sweepStep (sweepStep ⟨[], [], 0⟩ (startEv a)) (stopEv a)).ranges = _
  have h1 : sweepStep ⟨[], [], 0⟩ (startEv a) = ⟨[], [a], a.startOffset⟩ := by
    unfold sweepStep
    simp [startEv]
  rw [h1]
  unfold sweepStep
  simp [stopEv, removeFirstById, h, getMostRecentColor, mostRecent]

lemma gap_escData_eq (content : List Char) (s : Nat) :
    (if 0 < s then escData (sliceL content 0 s) else []) =
      escData (content.take s) := by
  by_cases h : 0 < s
  · rw [if_pos h]
    unfold sliceL
    rw [List.drop_zero]
  · rw [if_neg h]
    have : s = 0 := Nat.eq_zero_of_not_pos h
    subst this
    rfl

lemma applyText_single (content : String) (a : Annotation)
    (h : a.startOffset < a.endOffset) :
    applyHighlightsToText content [a] =
      ⟨(if 0 < a.startOffset then escData (sliceL content.data 0 a.startOffset) else []) ++
        ((createMarkOpen [a.id] a.color).data ++
          (escData (sliceL content.data a.startOffset a.endOffset) ++
            (createMarkClose.data ++
              (if a.endOffset < content.data.length then
                escData (content.data.drop a.endOffset) else []))))⟩ := by
  unfold applyHighlightsToText
  rw [if_neg (by simp)]
  simp only [resolve_single a h]
  rw [if_neg (by simp)]
  rw [foldl_paint_eq]
  simp only [piecesOf, pieceOf, lastOf, List.nil_append, List.append_nil,
    List.append_assoc]
  by_cases hlen : a.endOffset < content.data.length
  · have hlen2 : a.endOffset < content.length := hlen
    simp [hlen, hlen2]
  · have hlen2 : ¬a.endOffset < content.length := hlen
    simp [hlen, hlen2]

/-! ## The markup painter preserves visible text and structure -/

lemma wrapLeaf_flatten (ids : List String) (color : String) (rs re s0 : Nat) :
    ∀ segs : List Seg,
      (wrapLeaf ids color rs re s0 segs).flatMap segText = segs.flatMap segText := by
  intro segs
  cases segs with
  | nil => rfl
  | cons seg rest =>
    unfold wrapLeaf
    dsimp only
    split
    · rfl
    next h0 =>
      split
      · rfl
      next t =>
        split
        next h1 => simp [segText]
        next h1 =>
          split
          next h2 =>
            simp only [List.flatMap_cons, segText]
            rw [← List.append_assoc, List.take_append_drop]
          next h2 =>
            split
            next h3 =>
              simp only [List.flatMap_cons, segText]
              rw [← List.append_assoc, List.take_append_drop]
            next h3 =>
              simp only [List.flatMap_cons, segText]
              have h0t : ¬ t.length ⊓ (re - s0) ≤ rs - s0 := h0
              have hd : t.drop (t.length ⊓ (re - s0)) =
                  (t.drop (rs - s0)).drop (t.length ⊓ (re - s0) - (rs - s0)) := by
                rw [List.drop_drop]
                congr 1
                omega
              rw [hd]
              have hgroup : ∀ (x y z w : List Char),
                  x ++ (y ++ (z ++ w)) = (x ++ (y ++ z)) ++ w := by
                intro x y z w
                simp [List.append_assoc]
              rw [hgroup, List.take_append_drop, List.take_append_drop]

lemma updateLeafGo_flatten (f : List Seg → List Seg)
    (hf : ∀ segs, (f segs).flatMap segText = segs.flatMap segText) :
    ∀ (doc : List DomItem) (i : Nat),
      flattenDocText (updateLeafGo f doc i) = flattenDocText doc := by
  intro doc
  induction doc with
  | nil => intro i; rfl
  | cons item rest ih =>
    intro i
    cases item with
    | structural s =>
      show flattenDocText (DomItem.structural s :: updateLeafGo f rest i) = _
      show flattenDocText (updateLeafGo f rest i) = flattenDocText rest
      exact ih i
    | textLeaf segs =>
      cases i with
      | zero =>
        show flattenDocText (DomItem.textLeaf (f segs) :: rest) = _
        show (f segs).flatMap segText ++ flattenDocText rest = _
        rw [hf]
        rfl
      | succ i =>
        show flattenDocText (DomItem.textLeaf segs :: updateLeafGo f rest i) = _
        show segs.flatMap segText ++ flattenDocText (updateLeafGo f rest i) = _
        rw [ih i]
        rfl

lemma updateLeafGo_shape (f : List Seg → List Seg) :
    ∀ (doc : List DomItem) (i : Nat),
      docShape (updateLeafGo f doc i) = docShape doc := by
  intro doc
  induction doc with
  | nil => intro i; rfl
  | cons item rest ih =>
    intro i
    cases item with
    | structural s =>
      show some s :: docShape (updateLeafGo f rest i) = some s :: docShape rest
      rw [ih i]
    | textLeaf segs =>
      cases i with
      | zero => rfl
      | succ i =>
        show (none : Option String) :: docShape (updateLeafGo f rest i) =
          none :: docShape rest
        rw [ih i]

lemma wrapRangeInMark_flatten (textNodes : List TextNodeInfo)
    (range : HighlightRange) (doc : List DomItem) :
    flattenDocText (wrapRangeInMark textNodes range doc) = flattenDocText doc := by
  unfold wrapRangeInMark
  generalize (textNodes.filter fun info =>
    range.start < info.endOffset ∧ info.startOffset < range.endPos) = L
  induction L generalizing doc with
  | nil => rfl
  | cons info L ih =>
    show flattenDocText (updateLeafGo _ (L.foldr _ doc) info.leafIdx) = _
    rw [updateLeafGo_flatten _ (wrapLeaf_flatten _ _ _ _ _), ih]

lemma wrapRangeInMark_shape (textNodes : List TextNodeInfo)
    (range : HighlightRange) (doc : List DomItem) :
    docShape (wrapRangeInMark textNodes range doc) = docShape doc := by
  unfold wrapRangeInMark
  generalize (textNodes.filter fun info =>
    range.start < info.endOffset ∧ info.startOffset < range.endPos) = L
  induction L generalizing doc with
  | nil => rfl
  | cons info L ih =>
    show docShape (updateLeafGo _ (L.foldr _ doc) info.leafIdx) = _
    rw [updateLeafGo_shape, ih]

lemma foldl_wrap_preserves (textNodes : List TextNodeInfo) :
    ∀ (rs : List HighlightRange) (doc : List DomItem),
      flattenDocText (rs.foldl (fun d r => wrapRangeInMark textNodes r d) doc) =
        flattenDocText doc ∧
      docShape (rs.foldl (fun d r => wrapRangeInMark textNodes r d) doc) =
        docShape doc := by
  intro rs
  induction rs with
  | nil => intro doc; exact ⟨rfl, rfl⟩
  | cons r rs ih =>
    intro doc
    rw [List.foldl_cons]
    rcases ih (wrapRangeInMark textNodes r doc) with ⟨h1, h2⟩
    exact ⟨h1.trans (wrapRangeInMark_flatten _ _ _),
      h2.trans (wrapRangeInMark_shape _ _ _)⟩

/-- C7: the markup painter never changes the flattened visible-text stream of
the document, and never changes any structural node: the output is the input
document with only text nodes split and wrapped in place. -/
theorem paintMarkup_preserves_text_and_structure (doc : List DomItem)
    (annotations : List Annotation) :
    flattenDocText (applyHighlightsToHtmlDoc doc annotations) = flattenDocText doc ∧
    docShape (applyHighlightsToHtmlDoc doc annotations) = docShape doc :=
  foldl_wrap_preserves (buildTextNodeMap doc)
    (sortRangesDesc (resolveOverlappingAnnotations annotations)) doc

/-! ## Semantic characterization of the sweep -/

/-- Predicate: `a`'s half-open range contains the whole interval `[s, e)`. -/
def covers (a : Annotation) (s e : Nat) : Prop :=
  a.startOffset ≤ s ∧ e ≤ a.endOffset

instance (a : Annotation) (s e : Nat) : Decidable (covers a s e) := by
  unfold covers; exact inferInstance

/-- Predicate: `o` is the start or end offset of some input annotation. -/
def isEvOff (anns : List Annotation) (o : Nat) : Prop :=
  ∃ a ∈ anns, a.startOffset = o ∨ a.endOffset = o

instance (anns : List Annotation) (o : Nat) : Decidable (isEvOff anns o) := by
  unfold isEvOff; exact inferInstance

lemma startEv_inj {a b : Annotation} (h : startEv a = startEv b) : a = b :=
  congrArg Event.annotation h

lemma stopEv_inj {a b : Annotation} (h : stopEv a = stopEv b) : a = b :=
  congrArg Event.annotation h

lemma startEv_ne_stopEv (a b : Annotation) : startEv a ≠ stopEv b := fun h =>
  EventType.noConfusion (congrArg Event.type h)

lemma removeFirstById_nodup {l : List Annotation} {i : String} (h : l.Nodup) :
    (removeFirstById l i).Nodup := by
  induction l with
  | nil => exact List.Pairwise.nil
  | cons b rest ih =>
    unfold removeFirstById
    by_cases hb : b.id = i
    · rw [if_pos hb]
      exact (List.nodup_cons.mp h).2
    · rw [if_neg hb]
      refine List.nodup_cons.mpr ⟨?_, ih (List.nodup_cons.mp h).2⟩
      intro hmem
      exact (List.nodup_cons.mp h).1 (removeFirstById_subset _ hmem)

lemma removeFirstById_mem_iff {l : List Annotation} {a : Annotation}
    (hnd : l.Nodup) (ha : a ∈ l) (huniq : ∀ b ∈ l, b.id = a.id → b = a) :
    ∀ b, b ∈ removeFirstById l a.id ↔ (b ∈ l ∧ b ≠ a) := by
  induction l with
  | nil => intro b; cases ha
  | cons h t ih =>
    intro b
    unfold removeFirstById
    by_cases hh : h.id = a.id
    · have hha : h = a := huniq h (List.mem_cons_self _ _) hh
      rw [if_pos hh]
      subst hha
      constructor
      · intro hb
        refine ⟨List.mem_cons_of_mem _ hb, ?_⟩
        intro hba
        exact (List.nodup_cons.mp hnd).1 (hba ▸ hb)
      · intro ⟨hb, hba⟩
        rcases List.mem_cons.mp hb with rfl | hb
        · exact absurd rfl hba
        · exact hb
    · rw [if_neg hh]
      have hha : h ≠ a := fun hq => hh (hq ▸ rfl)
      have hat : a ∈ t := by
        rcases List.mem_cons.mp ha with rfl | hat
        · exact absurd rfl hha
        · exact hat
      have iht := ih (List.nodup_cons.mp hnd).2 hat
        (fun b hb hbid => huniq b (List.mem_cons_of_mem _ hb) hbid)
      constructor
      · intro hb
        rcases List.mem_cons.mp hb with rfl | hb
        · exact ⟨List.mem_cons_self _ _, hha⟩
        · rcases (iht b).mp hb with ⟨hbt, hba⟩
          exact ⟨List.mem_cons_of_mem _ hbt, hba⟩
      · intro ⟨hb, hba⟩
        rcases List.mem_cons.mp hb with rfl | hb
        · exact List.mem_cons_self _ _
        · exact List.mem_cons_of_mem _ ((iht b).mpr ⟨hb, hba⟩)

/-- The inductive invariant of the sweep loop relating the remaining event
list, the active list and `lastOffset` to the original annotations. -/
structure SweepInv (anns : List Annotation) (E : List Event) (st : SweepState) : Prop where
  sortedE : E.Pairwise evLE
  loLe : ∀ e ∈ E, st.lastOffset ≤ e.offset
  nodupE : E.Nodup
  nodupAct : st.active.Nodup
  subAct : ∀ a ∈ st.active, a ∈ anns
  ownE : ∀ e ∈ E, e.annotation ∈ anns ∧
    (e = startEv e.annotation ∨ e = stopEv e.annotation)
  actStart : ∀ a ∈ st.active, a.startOffset ≤ st.lastOffset
  actStartE : ∀ a ∈ st.active, startEv a ∉ E
  actStop : ∀ a ∈ st.active, stopEv a ∈ E
  pend : ∀ a ∈ anns, stopEv a ∈ E → startEv a ∈ E ∨ a ∈ st.active
  partStart : ∀ a ∈ anns, startEv a ∈ E ∨ a.startOffset ≤ st.lastOffset
  partStop : ∀ a ∈ anns, stopEv a ∈ E ∨ a.endOffset ≤ st.lastOffset
  loEv : st.active ≠ [] → isEvOff anns st.lastOffset

lemma sweepInv_step (anns : List Annotation)
    (hIds : anns.Pairwise (fun a b => a.id ≠ b.id))
    (hValid : ∀ a ∈ anns, a.startOffset < a.endOffset)
    (e : Event) (E : List Event) (st : SweepState)
    (inv : SweepInv anns (e :: E) st) : SweepInv anns E (sweepStep st e) := by
  have hA : e.annotation ∈ anns := (inv.ownE e (List.mem_cons_self _ _)).1
  have hform := (inv.ownE e (List.mem_cons_self _ _)).2
  have hsE : E.Pairwise evLE := (List.pairwise_cons.mp inv.sortedE).2
  have hee : ∀ x ∈ E, evLE e x := (List.pairwise_cons.mp inv.sortedE).1
  have heE : e ∉ E := (List.nodup_cons.mp inv.nodupE).1
  have hndE : E.Nodup := (List.nodup_cons.mp inv.nodupE).2
  have hloe : st.lastOffset ≤ e.offset := inv.loLe e (List.mem_cons_self _ _)
  have hoff : ∀ x ∈ E, e.offset ≤ x.offset := fun x hx => evLE_offset_le (hee x hx)
  have hlast : (sweepStep st e).lastOffset = e.offset := rfl
  rcases hform with hse | hse
  · -- start event
    have hty : e.type = EventType.start := by rw [hse]; rfl
    have hofs : e.offset = e.annotation.startOffset := by rw [hse]; rfl
    have hact : (sweepStep st e).active = st.active ++ [e.annotation] := by
      rw [sweepStep_active, hty]
    have hnotin : e.annotation ∉ st.active := by
      intro hmem
      have hm2 : startEv e.annotation ∈ e :: E := by
        rw [← hse]
        exact List.mem_cons_self _ _
      exact inv.actStartE _ hmem hm2
    constructor
    · exact hsE
    · intro x hx; rw [hlast]; exact hoff x hx
    · exact hndE
    · rw [hact]
      rw [List.nodup_append]
      refine ⟨inv.nodupAct, List.nodup_singleton _, ?_⟩
      intro b hb hbs
      rcases List.mem_singleton.mp hbs with rfl
      exact hnotin hb
    · rw [hact]
      intro b hb
      rcases List.mem_append.mp hb with hb | hb
      · exact inv.subAct b hb
      · rcases List.mem_singleton.mp hb with rfl
        exact hA
    · intro x hx; exact inv.ownE x (List.mem_cons_of_mem _ hx)
    · rw [hact, hlast]
      intro b hb
      rcases List.mem_append.mp hb with hb | hb
      · exact Nat.le_trans (inv.actStart b hb) hloe
      · rcases List.mem_singleton.mp hb with rfl
        rw [hofs]
    · rw [hact]
      intro b hb
      rcases List.mem_append.mp hb with hb | hb
      · intro hmem
        exact inv.actStartE b hb (List.mem_cons_of_mem _ hmem)
      · rcases List.mem_singleton.mp hb with rfl
        intro hmem
        rw [← hse] at hmem
        exact heE hmem
    · rw [hact]
      intro b hb
      rcases List.mem_append.mp hb with hb | hb
      · rcases List.mem_cons.mp (inv.actStop b hb) with heq | hmem
        · exact absurd (heq.trans hse) (Ne.symm (startEv_ne_stopEv _ _))
        · exact hmem
      · rcases List.mem_singleton.mp hb with rfl
        rcases inv.partStop e.annotation hA with hmem | hle
        · rcases List.mem_cons.mp hmem with heq | hmem
          · exact absurd (heq.trans hse) (Ne.symm (startEv_ne_stopEv _ _))
          · exact hmem
        · exfalso
          have hvd := hValid e.annotation hA
          omega
    · intro b hb hstop
      rcases inv.pend b hb (List.mem_cons_of_mem _ hstop) with hstart | hmem
      · rcases List.mem_cons.mp hstart with heq | hstart'
        · have hba : b = e.annotation := startEv_inj (heq.trans hse)
          right
          rw [hact, hba]
          exact List.mem_append_right _ (List.mem_singleton.mpr rfl)
        · exact Or.inl hstart'
      · right
        rw [hact]
        exact List.mem_append_left _ hmem
    · intro b hb
      rcases inv.partStart b hb with hstart | hle
      · rcases List.mem_cons.mp hstart with heq | hstart'
        · right
          rw [hlast]
          have hba : b = e.annotation := startEv_inj (heq.trans hse)
          rw [hba, hofs]
        · exact Or.inl hstart'
      · right; rw [hlast]; exact Nat.le_trans hle hloe
    · intro b hb
      rcases inv.partStop b hb with hstop | hle
      · rcases List.mem_cons.mp hstop with heq | hstop'
        · exact absurd (heq.trans hse) (Ne.symm (startEv_ne_stopEv _ _))
        · exact Or.inl hstop'
      · right; rw [hlast]; exact Nat.le_trans hle hloe
    · intro _
      rw [hlast]
      exact ⟨e.annotation, hA, Or.inl hofs.symm⟩
  · -- stop event
    have hty : e.type = EventType.stop := by rw [hse]; rfl
    have hofs : e.offset = e.annotation.endOffset := by rw [hse]; rfl
    have hmemA : e.annotation ∈ st.active := by
      have hm2 : stopEv e.annotation ∈ e :: E := by
        rw [← hse]
        exact List.mem_cons_self _ _
      rcases inv.pend e.annotation hA hm2 with hstart | hmem
      · exfalso
        rcases List.mem_cons.mp hstart with heq | hstart'
        · exact startEv_ne_stopEv _ _ (heq.trans hse)
        · have h1 := hoff _ hstart'
          have h2 := hValid e.annotation hA
          have h3 : (startEv e.annotation).offset = e.annotation.startOffset := rfl
          omega
      · exact hmem
    have huniq : ∀ b ∈ st.active, b.id = e.annotation.id → b = e.annotation := by
      intro b hb hbid
      by_contra hne
      have hsymm : Symmetric (fun a b : Annotation => a.id ≠ b.id) := by
        intro x y h hq
        exact h hq.symm
      exact List.Pairwise.forall hsymm hIds (inv.subAct b hb) hA hne hbid
    have hact : (sweepStep st e).active = removeFirstById st.active e.annotation.id := by
      rw [sweepStep_active, hty]
    have hmm := removeFirstById_mem_iff inv.nodupAct hmemA huniq
    constructor
    · exact hsE
    · intro x hx; rw [hlast]; exact hoff x hx
    · exact hndE
    · rw [hact]; exact removeFirstById_nodup inv.nodupAct
    · rw [hact]
      intro b hb
      exact inv.subAct b (removeFirstById_subset b hb)
    · intro x hx; exact inv.ownE x (List.mem_cons_of_mem _ hx)
    · rw [hact, hlast]
      intro b hb
      exact Nat.le_trans (inv.actStart b (removeFirstById_subset b hb)) hloe
    · rw [hact]
      intro b hb hmem
      exact inv.actStartE b (removeFirstById_subset b hb) (List.mem_cons_of_mem _ hmem)
    · rw [hact]
      intro b hb
      rcases (hmm b).mp hb with ⟨hbact, hbne⟩
      rcases List.mem_cons.mp (inv.actStop b hbact) with heq | hmem
      · exact absurd (stopEv_inj (heq.trans hse)) hbne
      · exact hmem
    · intro b hb hstop
      rcases inv.pend b hb (List.mem_cons_of_mem _ hstop) with hstart | hmem
      · rcases List.mem_cons.mp hstart with heq | hstart'
        · exact absurd (heq.trans hse) (startEv_ne_stopEv _ _)
        · exact Or.inl hstart'
      · right
        rw [hact]
        refine (hmm b).mpr ⟨hmem, ?_⟩
        intro hba
        subst hba
        rw [← hse] at hstop
        exact heE hstop
    · intro b hb
      rcases inv.partStart b hb with hstart | hle
      · rcases List.mem_cons.mp hstart with heq | hstart'
        · exact absurd (heq.trans hse) (startEv_ne_stopEv _ _)
        · exact Or.inl hstart'
      · right; rw [hlast]; exact Nat.le_trans hle hloe
    · intro b hb
      rcases inv.partStop b hb with hstop | hle
      · rcases List.mem_cons.mp hstop with heq | hstop'
        · right
          rw [hlast]
          have hba : b = e.annotation := stopEv_inj (heq.trans hse)
          rw [hba, hofs]
        · exact Or.inl hstop'
      · right; rw [hlast]; exact Nat.le_trans hle hloe
    · intro _
      rw [hlast]
      exact ⟨e.annotation, hA, Or.inr hofs.symm⟩

lemma active_iff_covers (anns : List Annotation)
    (e : Event) (E : List Event) (st : SweepState)
    (inv : SweepInv anns (e :: E) st) (hlt : st.lastOffset < e.offset) :
    ∀ b, b ∈ st.active ↔ (b ∈ anns ∧ covers b st.lastOffset e.offset) := by
  intro b
  constructor
  · intro hb
    refine ⟨inv.subAct b hb, inv.actStart b hb, ?_⟩
    rcases List.mem_cons.mp (inv.actStop b hb) with heq | hmem
    · exact Nat.le_of_eq (congrArg Event.offset heq.symm)
    · exact evLE_offset_le ((List.pairwise_cons.mp inv.sortedE).1 _ hmem)
  · rintro ⟨hbanns, hc1, hc2⟩
    have hend : st.lastOffset < b.endOffset := Nat.lt_of_lt_of_le hlt hc2
    have hstop : stopEv b ∈ e :: E := by
      rcases inv.partStop b hbanns with h | h
      · exact h
      · omega
    rcases inv.pend b hbanns hstop with hstart | hmem
    · exfalso
      rcases List.mem_cons.mp hstart with heq | hmem2
      · have h1 : (startEv b).offset = e.offset := congrArg Event.offset heq
        have h2 : (startEv b).offset = b.startOffset := rfl
        omega
      · have h1 := evLE_offset_le ((List.pairwise_cons.mp inv.sortedE).1 _ hmem2)
        have h2 : (startEv b).offset = b.startOffset := rfl
        omega
    · exact hmem

/-- The master lemma: from any state satisfying `SweepInv`, the rest of the
sweep appends exactly the spans of the still-to-come intervals: each emitted
span's id list characterizes the covering annotations, every still-covered
offset is covered by an emitted span, each span's color is a covering
annotation's color with maximal `createdAt`, and span boundaries are
annotation offsets with no annotation offset strictly inside a span. -/
lemma sweep_master (anns : List Annotation)
    (hIds : anns.Pairwise (fun a b => a.id ≠ b.id))
    (hValid : ∀ a ∈ anns, a.startOffset < a.endOffset) :
    ∀ (E : List Event) (st : SweepState), SweepInv anns E st →
      ∃ Δ : List HighlightRange,
        (E.foldl sweepStep st).ranges = st.ranges ++ Δ ∧
        (∀ r ∈ Δ, ∀ i : String,
          i ∈ r.annotationIds ↔ ∃ a ∈ anns, a.id = i ∧ covers a r.start r.endPos) ∧
        (∀ x : Nat, st.lastOffset ≤ x →
          (∃ a ∈ anns, a.startOffset ≤ x ∧ x < a.endOffset) →
          ∃ r ∈ Δ, r.start ≤ x ∧ x < r.endPos) ∧
        (∀ r ∈ Δ, ∃ m ∈ anns, covers m r.start r.endPos ∧ r.color = m.color ∧
          ∀ b ∈ anns, covers b r.start r.endPos → b.createdAt ≤ m.createdAt) ∧
        (∀ r ∈ Δ, isEvOff anns r.start ∧ isEvOff anns r.endPos ∧
          ∀ o : Nat, r.start < o → o < r.endPos → ¬ isEvOff anns o) := by
  intro E
  induction E with
  | nil =>
    intro st inv
    refine ⟨[], by simp, ?_, ?_, ?_, ?_⟩
    · intro r hr; cases hr
    · rintro x hx ⟨a, ha, hs, he⟩
      rcases inv.partStop a ha with hstop | hle
      · cases hstop
      · omega
    · intro r hr; cases hr
    · intro r hr; cases hr
  | cons e E ih =>
    intro st inv
    have inv' := sweepInv_step anns hIds hValid e E st inv
    obtain ⟨Δ', heq', hO1', hO2', hO3', hO5'⟩ := ih (sweepStep st e) inv'
    rw [List.foldl_cons]
    have hO2'' : ∀ x : Nat, e.offset ≤ x →
        (∃ a ∈ anns, a.startOffset ≤ x ∧ x < a.endOffset) →
        ∃ r ∈ Δ', r.start ≤ x ∧ x < r.endPos := hO2'
    by_cases hcond : st.active ≠ [] ∧ st.lastOffset < e.offset
    · have hranges : (sweepStep st e).ranges = st.ranges ++
          [⟨st.lastOffset, e.offset, st.active.map (fun a => a.id),
            getMostRecentColor st.active⟩] := by
        rw [sweepStep_ranges, if_pos hcond]
      have hiff := active_iff_covers anns e E st inv hcond.2
      refine ⟨⟨st.lastOffset, e.offset, st.active.map (fun a => a.id),
        getMostRecentColor st.active⟩ :: Δ', ?_, ?_, ?_, ?_, ?_⟩
      · rw [heq', hranges, List.append_assoc]
        rfl
      · intro r hr i
        rcases List.mem_cons.mp hr with rfl | hr
        · constructor
          · intro hi
            rcases List.mem_map.mp hi with ⟨b, hb, rfl⟩
            rcases (hiff b).mp hb with ⟨hbann, hbcov⟩
            exact ⟨b, hbann, rfl, hbcov⟩
          · rintro ⟨a, ha, rfl, hacov⟩
            exact List.mem_map.mpr ⟨a, (hiff a).mpr ⟨ha, hacov⟩, rfl⟩
        · exact hO1' r hr i
      · intro x hx hcover
        by_cases hxe : x < e.offset
        · exact ⟨_, List.mem_cons_self _ _, hx, hxe⟩
        · rcases hO2'' x (Nat.le_of_not_lt hxe) hcover with ⟨r, hr, hrs⟩
          exact ⟨r, List.mem_cons_of_mem _ hr, hrs⟩
      · intro r hr
        rcases List.mem_cons.mp hr with rfl | hr
        · obtain ⟨h0, t0, hht⟩ := List.exists_cons_of_ne_nil hcond.1
          have hcolor : getMostRecentColor st.active = (mostRecent h0 t0).color := by
            rw [hht]
            rfl
          have hm_mem : mostRecent h0 t0 ∈ st.active := by
            rw [hht]
            exact mostRecent_mem t0 h0
          rcases (hiff _).mp hm_mem with ⟨hmann, hmcov⟩
          refine ⟨mostRecent h0 t0, hmann, hmcov, hcolor, ?_⟩
          intro b hb hbcov
          have hbact : b ∈ st.active := (hiff b).mpr ⟨hb, hbcov⟩
          rw [hht] at hbact
          exact mostRecent_createdAt_le t0 h0 b hbact
        · exact hO3' r hr
      · intro r hr
        rcases List.mem_cons.mp hr with rfl | hr
        · refine ⟨inv.loEv hcond.1, ?_, ?_⟩
          · rcases inv.ownE e (List.mem_cons_self _ _) with ⟨hA, hform⟩
            rcases hform with hse | hse
            · exact ⟨e.annotation, hA, Or.inl (congrArg Event.offset hse).symm⟩
            · exact ⟨e.annotation, hA, Or.inr (congrArg Event.offset hse).symm⟩
          · rintro o ho1 ho2 ⟨a, ha, hao⟩
            have ho1' : st.lastOffset < o := ho1
            have ho2' : o < e.offset := ho2
            rcases hao with hao | hao
            · rcases inv.partStart a ha with hstart | hle
              · rcases List.mem_cons.mp hstart with heq | hmem
                · have h1 : (startEv a).offset = e.offset := congrArg Event.offset heq
                  have h2 : (startEv a).offset = a.startOffset := rfl
                  omega
                · have h1 := evLE_offset_le ((List.pairwise_cons.mp inv.sortedE).1 _ hmem)
                  have h2 : (startEv a).offset = a.startOffset := rfl
                  omega
              · omega
            · rcases inv.partStop a ha with hstop | hle
              · rcases List.mem_cons.mp hstop with heq | hmem
                · have h1 : (stopEv a).offset = e.offset := congrArg Event.offset heq
                  have h2 : (stopEv a).offset = a.endOffset := rfl
                  omega
                · have h1 := evLE_offset_le ((List.pairwise_cons.mp inv.sortedE).1 _ hmem)
                  have h2 : (stopEv a).offset = a.endOffset := rfl
                  omega
              · omega
        · exact hO5' r hr
    · have hranges : (sweepStep st e).ranges = st.ranges := by
        rw [sweepStep_ranges, if_neg hcond]
      refine ⟨Δ', by rw [heq', hranges], hO1', ?_, hO3', hO5'⟩
      intro x hx hcover
      have hxe : e.offset ≤ x := by
        by_contra hlt2
        have hxlt : x < e.offset := Nat.lt_of_not_le hlt2
        obtain ⟨a, ha, has, hae⟩ := hcover
        have hstop : stopEv a ∈ e :: E := by
          rcases inv.partStop a ha with h | h
          · exact h
          · omega
        have hmem : a ∈ st.active := by
          rcases inv.pend a ha hstop with hstart | hmem
          · exfalso
            rcases List.mem_cons.mp hstart with heq | hmem2
            · have h1 : (startEv a).offset = e.offset := congrArg Event.offset heq
              have h2 : (startEv a).offset = a.startOffset := rfl
              omega
            · have h1 := evLE_offset_le ((List.pairwise_cons.mp inv.sortedE).1 _ hmem2)
              have h2 : (startEv a).offset = a.startOffset := rfl
              omega
          · exact hmem
        apply hcond
        constructor
        · intro hnil
          rw [hnil] at hmem
          cases hmem
        · omega
      exact hO2'' x hxe hcover

lemma mem_rawEvents_iff {anns : List Annotation} {e : Event} :
    e ∈ rawEvents anns ↔ ∃ a ∈ anns, e = startEv a ∨ e = stopEv a := by
  unfold rawEvents
  rw [List.mem_flatMap]
  constructor
  · rintro ⟨a, ha, he⟩
    rcases List.mem_cons.mp he with rfl | he
    · exact ⟨a, ha, Or.inl rfl⟩
    · rcases List.mem_singleton.mp he with rfl
      exact ⟨a, ha, Or.inr rfl⟩
  · rintro ⟨a, ha, he | he⟩
    · exact ⟨a, ha, he ▸ List.mem_cons_self _ _⟩
    · exact ⟨a, ha, he ▸ List.mem_cons_of_mem _ (List.mem_cons_self _ _)⟩

lemma anns_nodup {anns : List Annotation}
    (hIds : anns.Pairwise (fun a b => a.id ≠ b.id)) : anns.Nodup :=
  hIds.imp fun h => fun he => h (he ▸ rfl)

lemma rawEvents_nodup : ∀ {anns : List Annotation}, anns.Nodup →
    (rawEvents anns).Nodup := by
  intro anns
  induction anns with
  | nil => intro _; exact List.Pairwise.nil
  | cons a rest ih =>
    intro hnd
    show (startEv a :: stopEv a :: rawEvents rest).Nodup
    refine List.nodup_cons.mpr ⟨?_, List.nodup_cons.mpr ⟨?_, ih (List.nodup_cons.mp hnd).2⟩⟩
    · intro hmem
      rcases List.mem_cons.mp hmem with heq | hmem
      · exact startEv_ne_stopEv a a heq
      · rcases mem_rawEvents_iff.mp hmem with ⟨b, hb, he | he⟩
        · exact (List.nodup_cons.mp hnd).1 (startEv_inj he ▸ hb)
        · exact startEv_ne_stopEv a b he
    · intro hmem
      rcases mem_rawEvents_iff.mp hmem with ⟨b, hb, he | he⟩
      · exact startEv_ne_stopEv b a he.symm
      · exact (List.nodup_cons.mp hnd).1 (stopEv_inj he ▸ hb)

lemma sweepInv_init (anns : List Annotation)
    (hIds : anns.Pairwise (fun a b => a.id ≠ b.id)) :
    SweepInv anns (sortEvents (rawEvents anns)) ⟨[], [], 0⟩ := by
  constructor
  · exact sortEvents_sorted _
  · intro e _; exact Nat.zero_le _
  · exact (List.perm_insertionSort evLE _).nodup_iff.mpr (rawEvents_nodup (anns_nodup hIds))
  · exact List.Pairwise.nil
  · intro a ha; cases ha
  · intro e he
    rcases mem_rawEvents_iff.mp (mem_sortEvents.mp he) with ⟨a, ha, heq | heq⟩
    · subst heq
      exact ⟨ha, Or.inl rfl⟩
    · subst heq
      exact ⟨ha, Or.inr rfl⟩
  · intro a ha; cases ha
  · intro a ha; cases ha
  · intro a ha; cases ha
  · intro a ha _
    exact Or.inl (mem_sortEvents.mpr (mem_rawEvents_iff.mpr ⟨a, ha, Or.inl rfl⟩))
  · intro a ha
    exact Or.inl (mem_sortEvents.mpr (mem_rawEvents_iff.mpr ⟨a, ha, Or.inl rfl⟩))
  · intro a ha
    exact Or.inl (mem_sortEvents.mpr (mem_rawEvents_iff.mpr ⟨a, ha, Or.inr rfl⟩))
  · intro h; exact absurd rfl h

/-- Top-level semantic description of `resolveOverlappingAnnotations` for
valid annotations with pairwise-distinct ids. -/
lemma resolve_master (anns : List Annotation)
    (hIds : anns.Pairwise (fun a b => a.id ≠ b.id))
    (hValid : ∀ a ∈ anns, a.startOffset < a.endOffset) :
    (∀ r ∈ resolveOverlappingAnnotations anns, ∀ i : String,
      i ∈ r.annotationIds ↔ ∃ a ∈ anns, a.id = i ∧ covers a r.start r.endPos) ∧
    (∀ x : Nat, (∃ a ∈ anns, a.startOffset ≤ x ∧ x < a.endOffset) →
      ∃ r ∈ resolveOverlappingAnnotations anns, r.start ≤ x ∧ x < r.endPos) ∧
    (∀ r ∈ resolveOverlappingAnnotations anns,
      ∃ m ∈ anns, covers m r.start r.endPos ∧ r.color = m.color ∧
        ∀ b ∈ anns, covers b r.start r.endPos → b.createdAt ≤ m.createdAt) ∧
    (∀ r ∈ resolveOverlappingAnnotations anns,
      isEvOff anns r.start ∧ isEvOff anns r.endPos ∧
        ∀ o : Nat, r.start < o → o < r.endPos → ¬ isEvOff anns o) := by
  by_cases hnil : anns = []
  · subst hnil
    refine ⟨?_, ?_, ?_, ?_⟩
    · intro r hr; cases hr
    · rintro x ⟨a, ha, _⟩; cases ha
    · intro r hr; cases hr
    · intro r hr; cases hr
  · have hres : resolveOverlappingAnnotations anns =
        ((sortEvents (rawEvents anns)).foldl sweepStep ⟨[], [], 0⟩).ranges := by
      unfold resolveOverlappingAnnotations
      rw [if_neg hnil]
    obtain ⟨Δ, heq, hO1, hO2, hO3, hO5⟩ :=
      sweep_master anns hIds hValid (sortEvents (rawEvents anns)) ⟨[], [], 0⟩
        (sweepInv_init anns hIds)
    have hΔ : resolveOverlappingAnnotations anns = Δ := by
      rw [hres, heq]
      rfl
    rw [hΔ]
    exact ⟨hO1, fun x hc => hO2 x (Nat.zero_le _) hc, hO3, hO5⟩

/-- C1: for valid annotations with distinct ids, the union of the output
span ranges is exactly the union of the input annotation ranges, and each
span's `annotationIds` contains exactly the ids of the annotations whose
range covers the whole span. -/
theorem resolve_coverage_and_annotationIds (annotations : List Annotation)
    (hIds : annotations.Pairwise (fun a b => a.id ≠ b.id))
    (hValid : ∀ a ∈ annotations, a.startOffset < a.endOffset) :
    (∀ x : Nat,
      (∃ r ∈ resolveOverlappingAnnotations annotations, r.start ≤ x ∧ x < r.endPos) ↔
      (∃ a ∈ annotations, a.startOffset ≤ x ∧ x < a.endOffset)) ∧
    (∀ r ∈ resolveOverlappingAnnotations annotations, ∀ i : String,
      i ∈ r.annotationIds ↔
        ∃ a ∈ annotations, a.id = i ∧ a.startOffset ≤ r.start ∧ r.endPos ≤ a.endOffset) := by
  obtain ⟨hO1, hO2, hO3, _⟩ := resolve_master annotations hIds hValid
  constructor
  · intro x
    constructor
    · rintro ⟨r, hr, hx1, hx2⟩
      obtain ⟨m, hm, hmcov, _, _⟩ := hO3 r hr
      obtain ⟨hm1, hm2⟩ := hmcov
      exact ⟨m, hm, Nat.le_trans hm1 hx1, Nat.lt_of_lt_of_le hx2 hm2⟩
    · exact hO2 x
  · exact hO1

/-- Witness for `resolve_coverage_and_annotationIds` at a concrete
overlapping pair. -/
theorem resolve_coverage_and_annotationIds_witness :
    (∀ x : Nat,
      (∃ r ∈ resolveOverlappingAnnotations [annTieA, annTieZ],
        r.start ≤ x ∧ x < r.endPos) ↔
      (∃ a ∈ [annTieA, annTieZ], a.startOffset ≤ x ∧ x < a.endOffset)) ∧
    (∀ r ∈ resolveOverlappingAnnotations [annTieA, annTieZ], ∀ i : String,
      i ∈ r.annotationIds ↔
        ∃ a ∈ [annTieA, annTieZ], a.id = i ∧
          a.startOffset ≤ r.start ∧ r.endPos ≤ a.endOffset) :=
  resolve_coverage_and_annotationIds [annTieA, annTieZ] (by decide) (by decide)

/-- Overlapping pair with distinct `createdAt` (the spec's Example 1). -/
def annLateA : Annotation := ⟨"A", 0, 10, "#111111", 1⟩

/-- See `annLateA`. -/
def annLateB : Annotation := ⟨"B", 5, 15, "#222222", 2⟩

/-- C3 (amended): when one covering annotation has strictly the latest
`createdAt` among all annotations covering a resolved span, the span's color
is that annotation's color.  (On `createdAt` ties the reduce keeps the
annotation encountered first in the active list — sweep order — not the
lexicographically larger id; see the counterexample.) -/
theorem resolve_color_latest_createdAt (annotations : List Annotation)
    (hIds : annotations.Pairwise (fun a b => a.id ≠ b.id))
    (hValid : ∀ a ∈ annotations, a.startOffset < a.endOffset)
    (r : HighlightRange) (hr : r ∈ resolveOverlappingAnnotations annotations)
    (_hmulti : 1 < r.annotationIds.length)
    (a : Annotation) (ha : a ∈ annotations)
    (hacov : a.startOffset ≤ r.start ∧ r.endPos ≤ a.endOffset)
    (hmax : ∀ b ∈ annotations, b ≠ a →
      b.startOffset ≤ r.start ∧ r.endPos ≤ b.endOffset → b.createdAt < a.createdAt) :
    r.color = a.color := by
  obtain ⟨_, _, hO3, _⟩ := resolve_master annotations hIds hValid
  obtain ⟨m, hm, hmcov, hcolor, hmle⟩ := hO3 r hr
  by_cases hma : m = a
  · rw [hcolor, hma]
  · have h1 := hmax m hm hma hmcov
    have h2 := hmle a ha hacov
    omega

/-- Witness for `resolve_color_latest_createdAt` at the spec's Example 1:
the overlap span `[5, 10)` takes the later-created annotation's color. -/
theorem resolve_color_latest_createdAt_witness :
    (⟨5, 10, ["A", "B"], "#222222"⟩ : HighlightRange).color = annLateB.color :=
  resolve_color_latest_createdAt [annLateA, annLateB] (by decide) (by decide)
    ⟨5, 10, ["A", "B"], "#222222"⟩ (by decide) (by decide)
    annLateB (by decide) (by decide) (by decide)

/-! ## Permutation invariance of span boundaries and id sets -/

/-- The order-independent description of a span the sweep can emit for a
given annotation set: a non-degenerate interval between two consecutive
annotation offsets whose covering set is non-empty. -/
def canonSpan (anns : List Annotation) (s e : Nat) : Prop :=
  s < e ∧ isEvOff anns s ∧ isEvOff anns e ∧
    (∀ o : Nat, s < o → o < e → ¬ isEvOff anns o) ∧ ∃ a ∈ anns, covers a s e

/-- The set of ids of annotations covering `[s, e)`. -/
def canonIds (anns : List Annotation) (s e : Nat) : Finset String :=
  ((anns.filter fun a => decide (covers a s e)).map (fun a => a.id)).toFinset

lemma mem_canonIds {anns : List Annotation} {s e : Nat} {i : String} :
    i ∈ canonIds anns s e ↔ ∃ a ∈ anns, a.id = i ∧ covers a s e := by
  unfold canonIds
  rw [List.mem_toFinset, List.mem_map]
  constructor
  · rintro ⟨a, ha, rfl⟩
    rw [List.mem_filter] at ha
    exact ⟨a, ha.1, rfl, of_decide_eq_true ha.2⟩
  · rintro ⟨a, ha, rfl, hcov⟩
    exact ⟨a, List.mem_filter.mpr ⟨ha, decide_eq_true hcov⟩, rfl⟩

lemma resolve_boundary_char (anns : List Annotation)
    (hIds : anns.Pairwise (fun a b => a.id ≠ b.id))
    (hValid : ∀ a ∈ anns, a.startOffset < a.endOffset) :
    ∀ s e : Nat,
      (∃ r ∈ resolveOverlappingAnnotations anns, r.start = s ∧ r.endPos = e) ↔
      canonSpan anns s e := by
  obtain ⟨hO1, hO2, hO3, hO5⟩ := resolve_master anns hIds hValid
  have hstruct := resolve_structure anns
  intro s e
  constructor
  · rintro ⟨r, hr, rfl, rfl⟩
    obtain ⟨m, hm, hmcov, _, _⟩ := hO3 r hr
    exact ⟨hstruct.2.1 r hr, (hO5 r hr).1, (hO5 r hr).2.1, (hO5 r hr).2.2,
      m, hm, hmcov⟩
  · rintro ⟨hse, hs, he, hnone, a, ha, hcov⟩
    obtain ⟨hc1, hc2⟩ := hcov
    obtain ⟨r, hr, hr1, hr2⟩ :=
      hO2 s ⟨a, ha, hc1, Nat.lt_of_lt_of_le hse hc2⟩
    obtain ⟨hrs, hre, hrnone⟩ := hO5 r hr
    have hstarts : r.start = s := by
      by_contra hne
      exact hrnone s (Nat.lt_of_le_of_ne hr1 hne) hr2 hs
    refine ⟨r, hr, hstarts, ?_⟩
    by_cases hle : r.endPos ≤ e
    · by_contra hne
      exact hnone r.endPos hr2 (Nat.lt_of_le_of_ne hle hne) hre
    · exfalso
      have h1 : r.start < e := by omega
      exact hrnone e h1 (Nat.lt_of_not_le hle) he

lemma isEvOff_perm {anns anns' : List Annotation} (h : anns.Perm anns') (o : Nat) :
    isEvOff anns o ↔ isEvOff anns' o := by
  unfold isEvOff
  constructor
  · rintro ⟨a, ha, hx⟩
    exact ⟨a, h.mem_iff.mp ha, hx⟩
  · rintro ⟨a, ha, hx⟩
    exact ⟨a, h.mem_iff.mpr ha, hx⟩

lemma canonSpan_perm {anns anns' : List Annotation} (h : anns.Perm anns')
    (s e : Nat) : canonSpan anns s e ↔ canonSpan anns' s e := by
  unfold canonSpan
  constructor
  · rintro ⟨h1, h2, h3, h4, a, ha, hc⟩
    refine ⟨h1, (isEvOff_perm h s).mp h2, (isEvOff_perm h e).mp h3, ?_,
      a, h.mem_iff.mp ha, hc⟩
    intro o ho1 ho2 hoff
    exact h4 o ho1 ho2 ((isEvOff_perm h o).mpr hoff)
  · rintro ⟨h1, h2, h3, h4, a, ha, hc⟩
    refine ⟨h1, (isEvOff_perm h s).mpr h2, (isEvOff_perm h e).mpr h3, ?_,
      a, h.mem_iff.mpr ha, hc⟩
    intro o ho1 ho2 hoff
    exact h4 o ho1 ho2 ((isEvOff_perm h o).mp hoff)

lemma canonIds_perm {anns anns' : List Annotation} (h : anns.Perm anns')
    (s e : Nat) : canonIds anns s e = canonIds anns' s e := by
  apply Finset.ext
  intro i
  rw [mem_canonIds, mem_canonIds]
  constructor
  · rintro ⟨a, ha, hx⟩
    exact ⟨a, h.mem_iff.mp ha, hx⟩
  · rintro ⟨a, ha, hx⟩
    exact ⟨a, h.mem_iff.mpr ha, hx⟩

lemma resolve_idsFinset (anns : List Annotation)
    (hIds : anns.Pairwise (fun a b => a.id ≠ b.id))
    (hValid : ∀ a ∈ anns, a.startOffset < a.endOffset) :
    ∀ r ∈ resolveOverlappingAnnotations anns,
      r.annotationIds.toFinset = canonIds anns r.start r.endPos := by
  obtain ⟨hO1, _, _, _⟩ := resolve_master anns hIds hValid
  intro r hr
  apply Finset.ext
  intro i
  rw [List.mem_toFinset, mem_canonIds]
  exact hO1 r hr i

lemma absMap_mem_char (anns : List Annotation)
    (hIds : anns.Pairwise (fun a b => a.id ≠ b.id))
    (hValid : ∀ a ∈ anns, a.startOffset < a.endOffset)
    (t : Nat × Nat × Finset String) :
    t ∈ (resolveOverlappingAnnotations anns).map
        (fun r => (r.start, r.endPos, r.annotationIds.toFinset)) ↔
      (canonSpan anns t.1 t.2.1 ∧ t.2.2 = canonIds anns t.1 t.2.1) := by
  rw [List.mem_map]
  constructor
  · rintro ⟨r, hr, rfl⟩
    refine ⟨?_, resolve_idsFinset anns hIds hValid r hr⟩
    exact (resolve_boundary_char anns hIds hValid r.start r.endPos).mp ⟨r, hr, rfl, rfl⟩
  · rintro ⟨hcs, hids⟩
    obtain ⟨r, hr, hs, he⟩ :=
      (resolve_boundary_char anns hIds hValid t.1 t.2.1).mpr hcs
    refine ⟨r, hr, ?_⟩
    have h3 : r.annotationIds.toFinset = t.2.2 := by
      rw [resolve_idsFinset anns hIds hValid r hr, hs, he, hids]
    rw [hs, he, h3]

lemma resolve_sorted_start (anns : List Annotation) :
    (resolveOverlappingAnnotations anns).Pairwise (fun r s => r.start < s.start) := by
  obtain ⟨hp, hv, _⟩ := resolve_structure anns
  refine List.Pairwise.imp_of_mem ?_ hp
  intro r s hr hs hle
  exact Nat.lt_of_lt_of_le (hv r hr) hle

/-- C5 (amended): for valid annotations with distinct ids, permuting the
input list preserves every span's boundaries and its set of annotation ids
(although the order within `annotationIds`, and the chosen color when
`createdAt` ties occur, can depend on the input order; and on the identical
list the result is identical since the resolver is a pure function). -/
theorem resolve_perm_boundaries_and_id_sets
    (annotations annotations' : List Annotation)
    (hperm : annotations.Perm annotations')
    (hIds : annotations.Pairwise (fun a b => a.id ≠ b.id))
    (hValid : ∀ a ∈ annotations, a.startOffset < a.endOffset) :
    (resolveOverlappingAnnotations annotations).map
        (fun r => (r.start, r.endPos, r.annotationIds.toFinset)) =
      (resolveOverlappingAnnotations annotations').map
        (fun r => (r.start, r.endPos, r.annotationIds.toFinset)) := by
  have hsymm : Symmetric (fun a b : Annotation => a.id ≠ b.id) := by
    intro x y h hq
    exact h hq.symm
  have hIds' : annotations'.Pairwise (fun a b => a.id ≠ b.id) :=
    (hperm.pairwise_iff fun h => hsymm h).mp hIds
  have hValid' : ∀ a ∈ annotations', a.startOffset < a.endOffset :=
    fun a ha => hValid a (hperm.mem_iff.mpr ha)
  have hsort1 : ((resolveOverlappingAnnotations annotations).map
      (fun r => (r.start, r.endPos, r.annotationIds.toFinset))).Pairwise
        (fun p q => p.1 < q.1) := by
    rw [List.pairwise_map]
    exact resolve_sorted_start annotations
  have hsort2 : ((resolveOverlappingAnnotations annotations').map
      (fun r => (r.start, r.endPos, r.annotationIds.toFinset))).Pairwise
        (fun p q => p.1 < q.1) := by
    rw [List.pairwise_map]
    exact resolve_sorted_start annotations'
  have hnd1 : ((resolveOverlappingAnnotations annotations).map
      (fun r => (r.start, r.endPos, r.annotationIds.toFinset))).Nodup := by
    refine hsort1.imp ?_
    intro p q h hq
    rw [hq] at h
    exact Nat.lt_irrefl _ h
  have hnd2 : ((resolveOverlappingAnnotations annotations').map
      (fun r => (r.start, r.endPos, r.annotationIds.toFinset))).Nodup := by
    refine hsort2.imp ?_
    intro p q h hq
    rw [hq] at h
    exact Nat.lt_irrefl _ h
  have hmemiff : ∀ t, t ∈ (resolveOverlappingAnnotations annotations).map
          (fun r => (r.start, r.endPos, r.annotationIds.toFinset)) ↔
        t ∈ (resolveOverlappingAnnotations annotations').map
          (fun r => (r.start, r.endPos, r.annotationIds.toFinset)) := by
    intro t
    rw [absMap_mem_char annotations hIds hValid t,
      absMap_mem_char annotations' hIds' hValid' t,
      canonSpan_perm hperm, canonIds_perm hperm]
  haveI : IsAntisymm (Nat × Nat × Finset String)
      (fun p q => p.1 < q.1) :=
    ⟨fun a b h1 h2 => absurd (Nat.lt_trans h1 h2) (Nat.lt_irrefl _)⟩
  exact List.eq_of_perm_of_sorted
    ((List.perm_ext_iff_of_nodup hnd1 hnd2).mpr hmemiff) hsort1 hsort2

/-- Witness for `resolve_perm_boundaries_and_id_sets` on a concrete permuted
pair of annotation lists. -/
theorem resolve_perm_boundaries_and_id_sets_witness :
    (resolveOverlappingAnnotations [annLateA, annLateB]).map
        (fun r => (r.start, r.endPos, r.annotationIds.toFinset)) =
      (resolveOverlappingAnnotations [annLateB, annLateA]).map
        (fun r => (r.start, r.endPos, r.annotationIds.toFinset)) :=
  resolve_perm_boundaries_and_id_sets [annLateA, annLateB] [annLateB, annLateA]
    (List.Perm.swap _ _ _) (by decide) (by decide)

/-! ## Out-of-range spans: clipping and skipping in both painters -/

/-- The text wrapped inside marks within one text node, in order. -/
def markedSegs : List Seg → List Char
  | [] => []
  | Seg.plain _ :: rest => markedSegs rest
  | Seg.marked _ _ s :: rest => s ++ markedSegs rest

/-- The text wrapped inside marks within a document, in document order. -/
def markedText : List DomItem → List Char
  | [] => []
  | DomItem.structural _ :: rest => markedText rest
  | DomItem.textLeaf segs :: rest => markedSegs segs ++ markedText rest

/-- A document in the shape the parser hands to the painter: every text node
is a single unsplit, unmarked segment. -/
def plainDoc : List DomItem → Prop
  | [] => True
  | DomItem.structural _ :: rest => plainDoc rest
  | DomItem.textLeaf segs :: rest => (∃ t, segs = [Seg.plain t]) ∧ plainDoc rest

/-- One text node clips the range to its own extent: whatever the range's
offsets, the text that ends up inside the mark is exactly the clamped slice
`t[rs - s0, re - s0)`; in particular nothing outside the node is marked and a
range reaching past the node's end is cut at the end. -/
lemma wrapLeaf_marked (ids : List String) (color : String) (rs re s0 : Nat)
    (t : List Char) :
    markedSegs (wrapLeaf ids color rs re s0 [Seg.plain t]) =
      sliceL t (rs - s0) (re - s0) := by
  unfold wrapLeaf
  dsimp only
  split
  next h0 =>
    have h0t : t.length ⊓ (re - s0) ≤ rs - s0 := h0
    show ([] : List Char) = sliceL t (rs - s0) (re - s0)
    symm
    unfold sliceL
    apply List.drop_eq_nil_of_le
    rw [List.length_take]
    omega
  next h0 =>
    have h0t : ¬ t.length ⊓ (re - s0) ≤ rs - s0 := h0
    split
    next h1 =>
      have ha : rs - s0 = 0 := h1.1
      have hb : t.length ⊓ (re - s0) = t.length := h1.2
      simp only [markedSegs, segText, List.append_nil]
      rw [ha]
      unfold sliceL
      rw [List.drop_zero, List.take_of_length_le (by omega)]
    next h1 =>
      split
      next h2 =>
        have ha : rs - s0 = 0 := h2
        have hne : t.length ⊓ (re - s0) ≠ t.length := fun hc => h1 ⟨h2, hc⟩
        have hmin : t.length ⊓ (re - s0) = re - s0 := by omega
        simp only [markedSegs, segText, List.append_nil]
        rw [ha, hmin]
        unfold sliceL
        rw [List.drop_zero]
      next h2 =>
        split
        next h3 =>
          have hb : t.length ⊓ (re - s0) = t.length := h3
          simp only [markedSegs, segText, List.append_nil]
          unfold sliceL
          rw [List.take_of_length_le (by omega)]
        next h3 =>
          have hne : t.length ⊓ (re - s0) ≠ t.length := h3
          have hmin : t.length ⊓ (re - s0) = re - s0 := by omega
          simp only [markedSegs, segText, List.append_nil]
          rw [hmin]
          unfold sliceL
          rw [List.drop_take]

/-- A clamped slice distributes over append with offsets shifted by the first
part's length. -/
lemma sliceL_append (t F : List Char) (a b : Nat) :
    sliceL (t ++ F) a b = sliceL t a b ++ sliceL F (a - t.length) (b - t.length) := by
  unfold sliceL
  rw [List.take_append_eq_append_take, List.drop_append_eq_append_drop]
  congr 1
  rw [List.length_take]
  rcases Nat.le_total t.length b with h | h
  · congr 1
    omega
  · have hb : b - t.length = 0 := by omega
    rw [hb]
    simp

/-- The wrapping pass written as one walk over the document with a running
offset: a text node is wrapped (clipped to the node, `wrapLeaf`) exactly when
it is nonempty and intersects the range — the condition under which
`buildTextNodeMap` lists it and the filter of `wrapRangeInMark` keeps it.
Proved below to equal `wrapRangeInMark` on the prebuilt map. -/
def wrapDoc (range : HighlightRange) : List DomItem → Nat → List DomItem
  | [], _ => []
  | DomItem.structural s :: rest, off => DomItem.structural s :: wrapDoc range rest off
  | DomItem.textLeaf segs :: rest, off =>
    DomItem.textLeaf
      (if 0 < leafLen segs ∧ range.start < off + leafLen segs ∧ off < range.endPos then
        wrapLeaf range.annotationIds range.color range.start range.endPos off segs
      else segs) :: wrapDoc range rest (off + leafLen segs)

/-- Shift a map entry to the next text-node index. -/
def incIdx (info : TextNodeInfo) : TextNodeInfo :=
  ⟨info.leafIdx + 1, info.startOffset, info.endOffset⟩

/-- Shift a map entry to the previous text-node index. -/
def decIdx (info : TextNodeInfo) : TextNodeInfo :=
  ⟨info.leafIdx - 1, info.startOffset, info.endOffset⟩

/-- The reverse-order update loop of `wrapRangeInMark` (line 181), over an
arbitrary entry list. -/
def applyUpds (range : HighlightRange) (L : List TextNodeInfo)
    (doc : List DomItem) : List DomItem :=
  L.foldr
    (fun info d =>
      updateLeafGo
        (wrapLeaf range.annotationIds range.color range.start range.endPos
          info.startOffset)
        d info.leafIdx)
    doc

lemma buildGo_succ : ∀ (d : List DomItem) (i off : Nat),
    buildTextNodeMapGo d (i + 1) off = (buildTextNodeMapGo d i off).map incIdx := by
  intro d
  induction d with
  | nil => intro i off; rfl
  | cons item rest ih =>
    intro i off
    cases item with
    | structural s =>
      show buildTextNodeMapGo rest (i + 1) off = _
      rw [ih]
      rfl
    | textLeaf segs =>
      by_cases hl : 0 < leafLen segs
      · show (if 0 < leafLen segs then _ else _) = List.map incIdx (if 0 < leafLen segs then _ else _)
        rw [if_pos hl, if_pos hl, List.map_cons, ih]
        rfl
      · show (if 0 < leafLen segs then _ else _) = List.map incIdx (if 0 < leafLen segs then _ else _)
        rw [if_neg hl, if_neg hl, ih]

lemma filter_map_incIdx (p : TextNodeInfo → Bool)
    (hp : ∀ x, p (incIdx x) = p x) :
    ∀ L : List TextNodeInfo, (L.map incIdx).filter p = (L.filter p).map incIdx := by
  intro L
  induction L with
  | nil => rfl
  | cons x L ih =>
    rw [List.map_cons, List.filter_cons, List.filter_cons, hp]
    by_cases hx : p x = true
    · rw [if_pos hx, if_pos hx, List.map_cons, ih]
    · rw [if_neg hx, if_neg hx, ih]

lemma map_decIdx_incIdx : ∀ L : List TextNodeInfo, (L.map incIdx).map decIdx = L := by
  intro L
  induction L with
  | nil => rfl
  | cons x L ih =>
    rw [List.map_cons, List.map_cons, ih]
    cases x
    rfl

lemma applyUpds_structural (range : HighlightRange) :
    ∀ (L : List TextNodeInfo) (s : String) (d : List DomItem),
      applyUpds range L (DomItem.structural s :: d) =
        DomItem.structural s :: applyUpds range L d := by
  intro L
  induction L with
  | nil => intro s d; rfl
  | cons info L ih =>
    intro s d
    show updateLeafGo _ (applyUpds range L (DomItem.structural s :: d)) info.leafIdx = _
    rw [ih]
    rfl

lemma applyUpds_leaf_ge1 (range : HighlightRange) :
    ∀ (L : List TextNodeInfo), (∀ info ∈ L, 1 ≤ info.leafIdx) →
      ∀ (segs : List Seg) (d : List DomItem),
        applyUpds range L (DomItem.textLeaf segs :: d) =
          DomItem.textLeaf segs :: applyUpds range (L.map decIdx) d := by
  intro L
  induction L with
  | nil => intro _ segs d; rfl
  | cons info L ih =>
    intro hge segs d
    show updateLeafGo _ (applyUpds range L (DomItem.textLeaf segs :: d)) info.leafIdx = _
    rw [ih (fun i hi => hge i (List.mem_cons_of_mem _ hi))]
    obtain ⟨k, hk⟩ : ∃ k, info.leafIdx = k + 1 := by
      have := hge info (List.mem_cons_self info L)
      exact ⟨info.leafIdx - 1, by omega⟩
    rw [hk]
    show DomItem.textLeaf segs :: updateLeafGo _ (applyUpds range (L.map decIdx) d) k = _
    have hdk : k = (decIdx info).leafIdx := by
      show k = info.leafIdx - 1
      omega
    rw [hdk]
    rfl

lemma applyUpds_cons (range : HighlightRange) (info : TextNodeInfo)
    (L : List TextNodeInfo) (d : List DomItem) :
    applyUpds range (info :: L) d =
      updateLeafGo
        (wrapLeaf range.annotationIds range.color range.start range.endPos
          info.startOffset)
        (applyUpds range L d) info.leafIdx := rfl

lemma mem_map_incIdx_ge1 (L : List TextNodeInfo) :
    ∀ info ∈ L.map incIdx, 1 ≤ info.leafIdx := by
  intro i hi
  obtain ⟨j, _, rfl⟩ := List.mem_map.mp hi
  show 1 ≤ j.leafIdx + 1
  omega

/-- The update loop of `wrapRangeInMark`, run on the filtered prebuilt map,
is the single offset-carrying walk `wrapDoc`. -/
lemma wrapRange_eq_wrapDoc (range : HighlightRange) :
    ∀ (doc : List DomItem) (off : Nat),
      applyUpds range
        ((buildTextNodeMapGo doc 0 off).filter fun info =>
          decide (range.start < info.endOffset ∧ info.startOffset < range.endPos))
        doc =
      wrapDoc range doc off := by
  intro doc
  induction doc with
  | nil => intro off; rfl
  | cons item rest ih =>
    intro off
    cases item with
    | structural s =>
      show applyUpds range ((buildTextNodeMapGo rest 0 off).filter fun info =>
        decide (range.start < info.endOffset ∧ info.startOffset < range.endPos))
        (DomItem.structural s :: rest) = _
      rw [applyUpds_structural, ih off]
      rfl
    | textLeaf segs =>
      by_cases hl : 0 < leafLen segs
      · have hbuild : buildTextNodeMapGo (DomItem.textLeaf segs :: rest) 0 off =
            (⟨0, off, off + leafLen segs⟩ : TextNodeInfo) ::
              (buildTextNodeMapGo rest 0 (off + leafLen segs)).map incIdx := by
          show (if 0 < leafLen segs then _ else _) = _
          rw [if_pos hl, buildGo_succ]
        rw [hbuild, List.filter_cons]
        by_cases hc : range.start < off + leafLen segs ∧ off < range.endPos
        · rw [if_pos (decide_eq_true hc), applyUpds_cons,
            filter_map_incIdx (fun info =>
              decide (range.start < info.endOffset ∧ info.startOffset < range.endPos))
              (fun x => rfl),
            applyUpds_leaf_ge1 range _ (mem_map_incIdx_ge1 _),
            map_decIdx_incIdx, ih (off + leafLen segs)]
          show DomItem.textLeaf (wrapLeaf range.annotationIds range.color range.start
              range.endPos off segs) :: wrapDoc range rest (off + leafLen segs) =
            DomItem.textLeaf (if 0 < leafLen segs ∧ range.start < off + leafLen segs ∧
                off < range.endPos then
              wrapLeaf range.annotationIds range.color range.start range.endPos off segs
            else segs) :: wrapDoc range rest (off + leafLen segs)
          rw [if_pos ⟨hl, hc.1, hc.2⟩]
        · rw [if_neg (fun h => hc (of_decide_eq_true h)),
            filter_map_incIdx (fun info =>
              decide (range.start < info.endOffset ∧ info.startOffset < range.endPos))
              (fun x => rfl),
            applyUpds_leaf_ge1 range _ (mem_map_incIdx_ge1 _),
            map_decIdx_incIdx, ih (off + leafLen segs)]
          show DomItem.textLeaf segs :: wrapDoc range rest (off + leafLen segs) =
            DomItem.textLeaf (if 0 < leafLen segs ∧ range.start < off + leafLen segs ∧
                off < range.endPos then
              wrapLeaf range.annotationIds range.color range.start range.endPos off segs
            else segs) :: wrapDoc range rest (off + leafLen segs)
          rw [if_neg (fun h => hc ⟨h.2.1, h.2.2⟩)]
      · have h0 : leafLen segs = 0 := Nat.eq_zero_of_not_pos hl
        have hbuild : buildTextNodeMapGo (DomItem.textLeaf segs :: rest) 0 off =
            (buildTextNodeMapGo rest 0 off).map incIdx := by
          show (if 0 < leafLen segs then _ else _) = _
          rw [if_neg hl, buildGo_succ]
        rw [hbuild, filter_map_incIdx (fun info =>
              decide (range.start < info.endOffset ∧ info.startOffset < range.endPos))
              (fun x => rfl),
          applyUpds_leaf_ge1 range _ (mem_map_incIdx_ge1 _),
          map_decIdx_incIdx, ih off]
        show DomItem.textLeaf segs :: wrapDoc range rest off =
          DomItem.textLeaf (if 0 < leafLen segs ∧ range.start < off + leafLen segs ∧
              off < range.endPos then
            wrapLeaf range.annotationIds range.color range.start range.endPos off segs
          else segs) :: wrapDoc range rest (off + leafLen segs)
        rw [if_neg (fun h => hl h.1), h0, Nat.add_zero]

/-- On a freshly parsed document the walk marks, node by node, exactly the
clamped slice of the flattened text between the range's offsets (shifted by
the starting offset of the walk). -/
lemma markedText_wrapDoc (range : HighlightRange) :
    ∀ (doc : List DomItem) (off : Nat), plainDoc doc →
      markedText (wrapDoc range doc off) =
        sliceL (flattenDocText doc) (range.start - off) (range.endPos - off) := by
  intro doc
  induction doc with
  | nil => intro off _; simp [wrapDoc, markedText, flattenDocText, sliceL]
  | cons item rest ih =>
    intro off hp
    cases item with
    | structural s =>
      show markedText (wrapDoc range rest off) = _
      exact ih off hp
    | textLeaf segs =>
      obtain ⟨⟨t, rfl⟩, hrest⟩ := hp
      have hlen : leafLen [Seg.plain t] = t.length := by
        simp [leafLen, segText]
      have hflat : ([Seg.plain t]).flatMap segText = t := by
        simp [segText]
      simp only [wrapDoc, markedText, flattenDocText, hlen, hflat]
      rw [sliceL_append]
      by_cases hcond : 0 < t.length ∧ range.start < off + t.length ∧ off < range.endPos
      · rw [if_pos hcond, wrapLeaf_marked, ih (off + t.length) hrest,
          Nat.sub_sub, Nat.sub_sub]
      · rw [if_neg hcond]
        have hz : sliceL t (range.start - off) (range.endPos - off) = [] := by
          by_cases h1 : t.length = 0
          · rw [List.length_eq_zero.mp h1]
            simp [sliceL]
          by_cases h2 : off + t.length ≤ range.start
          · unfold sliceL
            apply List.drop_eq_nil_of_le
            rw [List.length_take]
            omega
          · have h3 : range.endPos ≤ off := by
              rcases Nat.lt_or_ge off range.endPos with h | h
              · exact absurd ⟨Nat.pos_of_ne_zero h1, by omega, h⟩ hcond
              · exact h
            have h4 : range.endPos - off = 0 := by omega
            rw [h4]
            simp [sliceL]
        rw [ih (off + t.length) hrest, hz, Nat.sub_sub, Nat.sub_sub]
        simp [markedSegs]

/-- Per-span clipping in the markup painter: on a freshly parsed document,
whatever the range's offsets, the text wrapped in marks by a `wrapRangeInMark`
call is exactly the portion of the flattened text inside the range, clamped
to the text's extent — a range reaching past the end is silently cut there,
and a range lying wholly beyond it marks nothing. -/
lemma wrapRange_marked (doc : List DomItem) (range : HighlightRange)
    (hp : plainDoc doc) :
    markedText (wrapRangeInMark (buildTextNodeMap doc) range doc) =
      sliceL (flattenDocText doc) range.start range.endPos := by
  have h1 : wrapRangeInMark (buildTextNodeMap doc) range doc = wrapDoc range doc 0 :=
    wrapRange_eq_wrapDoc range doc 0
  rw [h1, markedText_wrapDoc range doc 0 hp, Nat.sub_zero, Nat.sub_zero]

/-- Closed form of the text painter for every annotation list that resolves to
at least one span: the output is the concatenation, span by span, of
`pieceOf` (escaped gap, marker open, escaped clamped slice of the span's
text, marker close), followed by the escaped remainder when any content is
left. -/
lemma applyText_pieces (content : String) (annotations : List Annotation)
    (hne : resolveOverlappingAnnotations annotations ≠ []) :
    applyHighlightsToText content annotations =
      ⟨piecesOf content.data 0 (resolveOverlappingAnnotations annotations) ++
        (if lastOf 0 (resolveOverlappingAnnotations annotations) <
            content.data.length then
          escData (content.data.drop
            (lastOf 0 (resolveOverlappingAnnotations annotations)))
        else [])⟩ := by
  have hanne : annotations ≠ [] := by
    intro h
    rw [h] at hne
    exact hne rfl
  unfold applyHighlightsToText
  rw [if_neg hanne]
  simp only [if_neg hne]
  rw [foldl_paint_eq]
  set N := lastOf 0 (resolveOverlappingAnnotations annotations) with hN
  by_cases hlen : N < content.data.length
  · rw [if_pos hlen, if_pos hlen]
    show String.mk
        (([] ++ piecesOf content.data 0 (resolveOverlappingAnnotations annotations)) ++
          escData (content.data.drop N)) = _
    rw [List.nil_append]
  · rw [if_neg hlen, if_neg hlen]
    show String.mk
        ([] ++ piecesOf content.data 0 (resolveOverlappingAnnotations annotations)) = _
    rw [List.nil_append, List.append_nil]

/-- A span reaching past the end of the content is clipped there: its piece
of the painter's output wraps in the marker exactly the escaped text from the
span's start to the end of the content, and nothing more. -/
lemma pieceOf_clip_partial (content : List Char) (li : Nat) (r : HighlightRange)
    (hs : r.start < content.length) (he : content.length ≤ r.endPos) :
    pieceOf content li r =
      (if li < r.start then escData (sliceL content li r.start) else []) ++
        ((createMarkOpen r.annotationIds r.color).data ++
          (escData (content.drop r.start) ++ createMarkClose.data)) := by
  unfold pieceOf
  have hmid : sliceL content r.start r.endPos = content.drop r.start := by
    unfold sliceL
    rw [List.take_of_length_le he]
  rw [hmid]

/-- A span lying wholly beyond the content contributes an empty marker: its
piece of the painter's output is the escaped gap followed by the marker open
and close with no text between them. -/
lemma pieceOf_empty_marker (content : List Char) (li : Nat) (r : HighlightRange)
    (hs : content.length ≤ r.start) :
    pieceOf content li r =
      (if li < r.start then escData (sliceL content li r.start) else []) ++
        ((createMarkOpen r.annotationIds r.color).data ++ createMarkClose.data) := by
  unfold pieceOf
  have hmid : sliceL content r.start r.endPos = [] := by
    unfold sliceL
    apply List.drop_eq_nil_of_le
    rw [List.length_take]
    omega
  rw [hmid]
  rfl

/-- C9 (amended): spans running beyond the flattened text are silently clipped
to the valid range by both painters, and neither painter can fail.  Markup
painter: for every range, the text wrapped in marks is exactly the clamped
in-range slice of the flattened text (conjunct 1, on documents in parsed
shape — the painter applies ranges by descending start, so a span beyond the
text meets the document before any span below it has split a node), and a
span beyond every text node leaves the document unchanged, emitting no marker
(conjunct 2).  Text painter: for every annotation list the output is the
span-by-span concatenation of `pieceOf` pieces plus the escaped remainder
(conjunct 3); the piece of a span reaching past the content wraps exactly the
escaped text from the span's start to the content's end (conjunct 4); the
piece of a span wholly beyond the content still carries a marker — an empty
one (conjunct 5). -/
theorem painters_clip_or_skip_out_of_range :
    (∀ (doc : List DomItem) (range : HighlightRange), plainDoc doc →
      markedText (wrapRangeInMark (buildTextNodeMap doc) range doc) =
        sliceL (flattenDocText doc) range.start range.endPos) ∧
    (∀ (textNodes : List TextNodeInfo) (range : HighlightRange) (doc : List DomItem),
      (∀ info ∈ textNodes, info.endOffset ≤ range.start) →
      wrapRangeInMark textNodes range doc = doc) ∧
    (∀ (content : String) (annotations : List Annotation),
      resolveOverlappingAnnotations annotations ≠ [] →
      applyHighlightsToText content annotations =
        ⟨piecesOf content.data 0 (resolveOverlappingAnnotations annotations) ++
          (if lastOf 0 (resolveOverlappingAnnotations annotations) <
              content.data.length then
            escData (content.data.drop
              (lastOf 0 (resolveOverlappingAnnotations annotations)))
          else [])⟩) ∧
    (∀ (content : List Char) (li : Nat) (r : HighlightRange),
      r.start < content.length → content.length ≤ r.endPos →
      pieceOf content li r =
        (if li < r.start then escData (sliceL content li r.start) else []) ++
          ((createMarkOpen r.annotationIds r.color).data ++
            (escData (content.drop r.start) ++ createMarkClose.data))) ∧
    (∀ (content : List Char) (li : Nat) (r : HighlightRange),
      content.length ≤ r.start →
      pieceOf content li r =
        (if li < r.start then escData (sliceL content li r.start) else []) ++
          ((createMarkOpen r.annotationIds r.color).data ++
            createMarkClose.data)) := by
  refine ⟨wrapRange_marked, ?_, applyText_pieces, pieceOf_clip_partial,
    pieceOf_empty_marker⟩
  intro textNodes range doc hout
  unfold wrapRangeInMark
  have hfil : textNodes.filter (fun info =>
      decide (range.start < info.endOffset ∧ info.startOffset < range.endPos)) = [] := by
    rw [List.filter_eq_nil_iff]
    intro info hinfo
    simp only [decide_eq_true_eq, not_and]
    intro hlt
    exact absurd hlt (Nat.not_lt.mpr (hout info hinfo))
  rw [hfil]
  rfl

/-- Witness for `painters_clip_or_skip_out_of_range` at concrete documents,
contents and spans: a partially and a wholly out-of-range span against each
painter. -/
theorem painters_clip_or_skip_out_of_range_witness :
    markedText (wrapRangeInMark
        (buildTextNodeMap [DomItem.structural "<p>",
          DomItem.textLeaf [Seg.plain ['a', 'b', 'c']], DomItem.structural "</p>"])
        ⟨1, 9, ["x"], "#123456"⟩
        [DomItem.structural "<p>", DomItem.textLeaf [Seg.plain ['a', 'b', 'c']],
          DomItem.structural "</p>"]) =
      sliceL (flattenDocText [DomItem.structural "<p>",
        DomItem.textLeaf [Seg.plain ['a', 'b', 'c']], DomItem.structural "</p>"]) 1 9 ∧
    wrapRangeInMark [⟨0, 0, 2⟩] ⟨5, 7, ["x"], "#123456"⟩
      [DomItem.textLeaf [Seg.plain ['a', 'b']]] =
      [DomItem.textLeaf [Seg.plain ['a', 'b']]] ∧
    applyHighlightsToText "ab" [annOut] =
      ⟨piecesOf "ab".data 0 (resolveOverlappingAnnotations [annOut]) ++
        (if lastOf 0 (resolveOverlappingAnnotations [annOut]) < "ab".data.length then
          escData ("ab".data.drop (lastOf 0 (resolveOverlappingAnnotations [annOut])))
        else [])⟩ ∧
    pieceOf ['a', 'b', 'c'] 0 ⟨1, 5, ["x"], "#123456"⟩ =
      (if 0 < 1 then escData (sliceL ['a', 'b', 'c'] 0 1) else []) ++
        ((createMarkOpen ["x"] "#123456").data ++
          (escData (['a', 'b', 'c'].drop 1) ++ createMarkClose.data)) ∧
    pieceOf ['a', 'b'] 0 ⟨5, 7, ["x"], "#123456"⟩ =
      (if 0 < 5 then escData (sliceL ['a', 'b'] 0 5) else []) ++
        ((createMarkOpen ["x"] "#123456").data ++ createMarkClose.data) :=
  ⟨painters_clip_or_skip_out_of_range.1
      [DomItem.structural "<p>", DomItem.textLeaf [Seg.plain ['a', 'b', 'c']],
        DomItem.structural "</p>"]
      ⟨1, 9, ["x"], "#123456"⟩ ⟨⟨['a', 'b', 'c'], rfl⟩, trivial⟩,
    painters_clip_or_skip_out_of_range.2.1 _ _ _ (by decide),
    painters_clip_or_skip_out_of_range.2.2.1 "ab" [annOut] (by decide),
    painters_clip_or_skip_out_of_range.2.2.2.1 ['a', 'b', 'c'] 0
      ⟨1, 5, ["x"], "#123456"⟩ (by decide) (by decide),
    painters_clip_or_skip_out_of_range.2.2.2.2 ['a', 'b'] 0
      ⟨5, 7, ["x"], "#123456"⟩ (by decide)⟩
